import Mathlib

/-!
Shallow embedding of the switch-error-rate program (`src/main.cc`) and proofs
about its per-sample phase-tracking state machine, its site reader and its
auxiliary filters (trio ambiguity, local-ancestry stratification).

The estimated and true genotype inputs are modelled as raw character streams
(`List Char`); the per-sample local-ancestry streams are modelled as lists of
already-classified records (the return values of `getLocalAnc`), because the
claims under study only concern when a record is consumed, not the
floating-point thresholding itself.  Failed `assert`s and `exit(1)` are
modelled as `Err.fatal`; an infinite loop (reading to an end of line that
never comes) is modelled as `Err.diverge`.
-/

namespace SwitchErr

/-- Abnormal outcomes of the modelled program: `fatal` is a failed `assert`
or `exit(1)`; `diverge` is an infinite loop. -/
inductive Err
  | fatal
  | diverge
deriving DecidableEq, Repr

instance {ε α : Type} [DecidableEq ε] [DecidableEq α] :
    DecidableEq (Except ε α) := fun a b =>
  match a, b with
  | .ok x, .ok y => decidable_of_iff (x = y) (by simp)
  | .error x, .error y => decidable_of_iff (x = y) (by simp)
  | .ok _, .error _ => isFalse (by simp)
  | .error _, .ok _ => isFalse (by simp)

/-- Placeholder character produced by a read past the end of a buffer or
stream (the C program would read `EOF` cast to `char`, or heap garbage). -/
def garbageChar : Char := Char.ofNat 255

/-- The configuration state set up by `parseCmdLine` and `main` before the
locus loop (globals `skipNumInEst`, `trioParentsInSuccession`,
`otherParentIdx`, `omitIndSet`, `useLocalAnc` in `src/main.cc`). -/
structure Config where
  numSamples : Nat
  skipNumInEst : Nat
  trioParentsInSuccession : Bool
  /-- `some table` when a trio-pairing file was given (`-p`); `table` is the
  `otherParentIdx` array, with `-1` for unset entries. -/
  otherParentIdx : Option (List Int)
  omitIndSet : List Nat
  useLocalAnc : Bool
deriving DecidableEq, Repr

/-- The mutable program state of `main`'s locus loop: the per-sample arrays
`homologsInverted`, `prevSwitchError`, `indivNumSwitches`, the global
counters, the per-ancestry-class accumulators, the per-sample
`prevLocalAnc` array, the remaining (pre-classified) local-ancestry streams,
and the one-time warning flag. -/
structure GState where
  homologsInverted : List Int
  prevSwitchError : List Nat
  indivNumSwitches : List Nat
  numMissing : Nat
  numSwitchErrors : Nat
  totalHetSites : Nat
  numMarkers : Nat
  numAncClassSwitchErrors : List Nat
  totalAncClassHetSites : List Nat
  prevLocalAnc : List Int
  ancStreams : List (List Int)
  oneHapTruthWarn : Bool
deriving DecidableEq, Repr

/-- Initial state (the initialization loops at `src/main.cc` lines 112-144). -/
def initState (cfg : Config) (ancStreams : List (List Int)) : GState where
  homologsInverted := List.replicate cfg.numSamples (-1)
  prevSwitchError := List.replicate cfg.numSamples 0
  indivNumSwitches := List.replicate cfg.numSamples 0
  numMissing := 0
  numSwitchErrors := 0
  totalHetSites := 0
  numMarkers := 0
  numAncClassSwitchErrors := List.replicate 4 0
  totalAncClassHetSites := List.replicate 4 0
  prevLocalAnc := List.replicate cfg.numSamples (-1)
  ancStreams := ancStreams
  oneHapTruthWarn := false

/-- `arr[i]++` on a list of counters. -/
def bumpAt (l : List Nat) (i : Nat) : List Nat := l.set i (l.getD i 0 + 1)

/-- Array indexing by a C `int` index (garbage when out of bounds). -/
def allAt (l : List Char) (i : Int) : Char :=
  if 0 ≤ i then l.getD i.toNat garbageChar else garbageChar

/-- The character alphabet check on true-set alleles (`src/main.cc` line 225). -/
def validTrueAllele (c : Char) : Bool := c == '0' || c == '1' || c == '9'

/-- The guard of the trio triple-heterozygosity check
(`src/main.cc` line 242-243): first of two in-succession parents, or an
explicit pairing table is present. -/
def trioApplicable (cfg : Config) (samp : Nat) : Bool :=
  (cfg.trioParentsInSuccession && samp % 2 == 0) || cfg.otherParentIdx.isSome

/-- The partner index used by the trio check (`src/main.cc` lines 247-250). -/
def trioOtherParent (cfg : Config) (samp : Nat) : Int :=
  if cfg.trioParentsInSuccession then (samp : Int) + 1
  else (cfg.otherParentIdx.getD []).getD samp (-1)

/-- The triple-heterozygous ambiguity condition (`src/main.cc` lines 252-254):
the sample is true-heterozygous, the partner is true-heterozygous, and the
two transmitted (first) haplotypes differ. -/
def tripleHetAmbig (allTrue : List Char) (samp otherParent : Int) : Bool :=
  allAt allTrue (samp * 2) != allAt allTrue (samp * 2 + 1) &&
  allAt allTrue (otherParent * 2) != allAt allTrue (otherParent * 2 + 1) &&
  allAt allTrue (samp * 2) != allAt allTrue (otherParent * 2)

/-- How one per-sample iteration of the locus loop ended: skipped because
the truth data is missing, skipped as trio-ambiguous (recording whether the
in-succession convention also advances past the partner), skipped as a
missing estimated call, or fully processed by the phase tracker. -/
inductive SampOutcome
  | missingTrue
  | trioSkip (advancePartner : Bool)
  | missingEst
  | processed
deriving DecidableEq, Repr

/-- `getLocalAnc` plus the surrounding bookkeeping (`src/main.cc` lines
198-211): consume one record from the sample's ancestry stream (fatal if the
stream has no further record), remember it in `prevLocalAnc`, and return the
confident-and-stable class (the record if it equals the previous one and is
nonnegative, `-1` otherwise).  Records are pre-classified integers in
`{-1, 0, 1, 2}`. -/
def ancStep (cfg : Config) (samp : Nat) (st : GState) : Except Err (Int × GState) :=
  if cfg.useLocalAnc then
    match st.ancStreams.getD samp [] with
    | [] => .error .fatal
    | cur :: rest =>
      let prev := st.prevLocalAnc.getD samp (-1)
      .ok ((if cur = prev ∧ 0 ≤ cur then cur else -1),
           { st with ancStreams := st.ancStreams.set samp rest,
                     prevLocalAnc := st.prevLocalAnc.set samp cur })
  else .ok (-1, st)

/-- The accumulator index for a confident-and-stable ancestry class: the
class itself when nonnegative, else the catch-all bucket 3 (`src/main.cc`
lines 320-323 and 346-349). -/
def ancIdxOf (a : Int) : Nat := if 0 ≤ a then a.toNat else 3

/-- `estAlleles[h]` for a homolog index `h` computed from the orientation
(`h0 = homologsInverted[samp]`, `h1 = 1 - h0`, `src/main.cc` lines 315-316);
orientation values are always 0 or 1 here in reachable states. -/
def estAt (h : Int) (est0 est1 : Char) : Char := if h = 0 then est0 else est1

/-- The heterozygous-site counting of the switch-detection branch
(`src/main.cc` lines 318-324): when the true genotype is heterozygous,
increment `totalHetSites` and the ancestry-class het bucket. -/
def hetBump (ancClass : Int) (true0 true1 : Char) (st : GState) : GState :=
  if true0 ≠ true1 then
    { st with totalHetSites := st.totalHetSites + 1,
              totalAncClassHetSites :=
                bumpAt st.totalAncClassHetSites (ancIdxOf ancClass) }
  else st

/-- The switch-error accounting of the mismatch branch (`src/main.cc` lines
345-360): bump the global and ancestry-class switch counters, toggle the
orientation, record the switch locus and bump the personal switch count. -/
def switchBump (ancClass : Int) (samp : Nat) (st : GState) : GState :=
  { st with
    numSwitchErrors := st.numSwitchErrors + 1,
    numAncClassSwitchErrors :=
      bumpAt st.numAncClassSwitchErrors (ancIdxOf ancClass),
    homologsInverted :=
      st.homologsInverted.set samp (1 - st.homologsInverted.getD samp (-1)),
    prevSwitchError := st.prevSwitchError.set samp (st.numMarkers - 1),
    indivNumSwitches := bumpAt st.indivNumSwitches samp }

/-- The phase-tracking tail of a per-sample iteration (`src/main.cc` lines
272-362): the missing-estimate check, then either the orientation-setting
branch (`homologsInverted[samp] == -1`) or the switch-detection branch. -/
def phaseTrack (est0 est1 true0 true1 : Char) (ancClass : Int) (samp : Nat)
    (st : GState) : Except Err (GState × SampOutcome) :=
  if est0 = '?' ∨ est1 = '?' then
    if est0 = est1 then
      .ok ({ st with numMissing := st.numMissing + 1 }, .missingEst)
    else .error .fatal
  else if st.homologsInverted.getD samp (-1) = -1 then
    if true0 = true1 then
      if est0 = est1 ∧ est0 = true0 then .ok (st, .processed) else .error .fatal
    else if est0 = true0 then
      if est1 = true1 then
        .ok ({ st with homologsInverted := st.homologsInverted.set samp 0 },
             .processed)
      else .error .fatal
    else if est0 = true1 ∧ est1 = true0 then
      .ok ({ st with homologsInverted := st.homologsInverted.set samp 1 },
           .processed)
    else .error .fatal
  else
    if estAt (st.homologsInverted.getD samp (-1)) est0 est1 = true0 then
      if estAt (1 - st.homologsInverted.getD samp (-1)) est0 est1 = true1 then
        .ok (hetBump ancClass true0 true1 st, .processed)
      else .error .fatal
    else if estAt (st.homologsInverted.getD samp (-1)) est0 est1 = true1 ∧
            estAt (1 - st.homologsInverted.getD samp (-1)) est0 est1 = true0 then
      .ok (switchBump ancClass samp (hetBump ancClass true0 true1 st),
           .processed)
    else .error .fatal

/-- One full per-sample iteration of the locus loop (`src/main.cc` lines
197-362): local-ancestry read, allele fetch and true-alphabet assertion,
missing-truth skip, missing-estimate assertion, trio ambiguity filter, then
the phase tracker. -/
def processSamp (cfg : Config) (allEst allTrue : List Char) (samp : Nat)
    (st : GState) : Except Err (GState × SampOutcome) :=
  match ancStep cfg samp st with
  | .error e => .error e
  | .ok (ancClass, stA) =>
    if validTrueAllele (allTrue.getD (samp * 2) garbageChar) &&
       validTrueAllele (allTrue.getD (samp * 2 + 1) garbageChar) then
      if allTrue.getD (samp * 2) garbageChar = '9' ∨
         allTrue.getD (samp * 2 + 1) garbageChar = '9' then
        .ok ({ stA with oneHapTruthWarn := stA.oneHapTruthWarn ||
                 !(allTrue.getD (samp * 2) garbageChar == '9' &&
                   allTrue.getD (samp * 2 + 1) garbageChar == '9') },
             .missingTrue)
      else if allEst.getD (samp * 2) garbageChar = '9' ∨
              allEst.getD (samp * 2 + 1) garbageChar = '9' then .error .fatal
      else if trioApplicable cfg samp &&
              tripleHetAmbig allTrue samp (trioOtherParent cfg samp) then
        .ok (stA, .trioSkip cfg.trioParentsInSuccession)
      else
        phaseTrack (allEst.getD (samp * 2) garbageChar)
          (allEst.getD (samp * 2 + 1) garbageChar)
          (allTrue.getD (samp * 2) garbageChar)
          (allTrue.getD (samp * 2 + 1) garbageChar) ancClass samp stA
    else .error .fatal

/-- How far the outer per-sample loop advances after an iteration: the trio
in-succession skip (`samp++` at `src/main.cc` line 264 plus the loop
increment) advances by 2, everything else by 1. -/
def outcomeAdvance : SampOutcome → Nat
  | .trioSkip true => 2
  | _ => 1

/-- The per-sample loop over one locus (`src/main.cc` line 197), starting at
sample index `samp`.  The first argument bounds the number of iterations;
since every iteration advances `samp` by at least 1, `cfg.numSamples` fuel
always suffices (`processSamplesFrom_fuel` below) and the loop is entered
with exactly that. -/
def processSamplesFrom (cfg : Config) (allEst allTrue : List Char) :
    Nat → Nat → GState → Except Err GState
  | 0, samp, st => if samp < cfg.numSamples then .error .diverge else .ok st
  | fuel + 1, samp, st =>
    if samp < cfg.numSamples then
      match processSamp cfg allEst allTrue samp st with
      | .error e => .error e
      | .ok (st', out) =>
        processSamplesFrom cfg allEst allTrue fuel (samp + outcomeAdvance out) st'
    else .ok st

/-- The per-sample loop over one locus, from sample 0. -/
def processSamples (cfg : Config) (allEst allTrue : List Char)
    (st : GState) : Except Err GState :=
  processSamplesFrom cfg allEst allTrue cfg.numSamples 0 st

/-- The skip loop over the initial `2*skipNumInEst` characters of an
estimated-stream line (`src/main.cc` lines 158-162); hitting the end of the
line early fails the assertion at line 162. -/
def skipEst : Nat → List Char → Except Err (List Char)
  | 0, cs => .ok cs
  | n + 1, [] => skipEst n []
  | n + 1, c :: cs => if c = '\n' then .error .fatal else skipEst n cs

/-- The estimated-allele read loop (`src/main.cc` lines 166-181): collect
characters, dropping those belonging to omitted samples, until a newline is
hit or `twoN` characters are collected.  Returns the collected characters,
the final count `i`, and the rest of the stream (the newline is put back by
`ungetc` when it terminated the loop).  At end of input the C program keeps
storing `EOF` cast to `char`, so the collected list is padded with
`garbageChar` and the count reaches `twoN`. -/
def readEstLoop (omitted : List Nat) (twoN : Nat) :
    Nat → Nat → List Char → List Char → (List Char × Nat × List Char)
  | i, _, acc, [] => (acc ++ List.replicate (twoN - i) garbageChar, twoN, [])
  | i, curHap, acc, c :: cs =>
    if c = '\n' then (acc, i, c :: cs)
    else if i < twoN then
      if curHap / 2 ∈ omitted then readEstLoop omitted twoN i (curHap + 1) acc cs
      else readEstLoop omitted twoN (i + 1) (curHap + 1) (acc ++ [c]) cs
    else (acc, i, cs)

/-- The true-allele read loop (`src/main.cc` lines 184-192), as
`readEstLoop` but with no omission. -/
def readTrueLoop (twoN : Nat) :
    Nat → List Char → List Char → (List Char × Nat × List Char)
  | i, acc, [] => (acc ++ List.replicate (twoN - i) garbageChar, twoN, [])
  | i, acc, c :: cs =>
    if c = '\n' then (acc, i, c :: cs)
    else if i < twoN then readTrueLoop twoN (i + 1) (acc ++ [c]) cs
    else (acc, i, cs)

/-- `while ((c = getc(f)) != '\n');` (`src/main.cc` lines 366-367): consume
up to and including the next newline; `none` (divergence) if the stream ends
first. -/
def readToEndline : List Char → Option (List Char)
  | [] => none
  | c :: cs => if c = '\n' then some cs else readToEndline cs

/-- The reading part of one locus iteration (`src/main.cc` lines 158-192):
skip the initial characters, read both allele lines (with the exact-count
assertions at lines 178 and 189), and return the collected allele arrays
together with both remaining streams. -/
def readLocusLines (cfg : Config) (est trueS : List Char) :
    Except Err (List Char × List Char × List Char × List Char) :=
  match skipEst (2 * cfg.skipNumInEst) est with
  | .error e => .error e
  | .ok est1 =>
    match readEstLoop cfg.omitIndSet (2 * cfg.numSamples) 0 0 [] est1 with
    | (allEst, i, est2) =>
      if i ≠ 2 * cfg.numSamples then .error .fatal
      else
        match readTrueLoop (2 * cfg.numSamples) 0 [] trueS with
        | (allTrue, j, true2) =>
          if j ≠ 2 * cfg.numSamples then .error .fatal
          else .ok (allEst, allTrue, est2, true2)

/-- One iteration of the outer locus loop, continued: bump `numMarkers`
(line 153), read the locus (lines 158-192), run the per-sample loop, then
read both streams to their end of line (lines 366-367). -/
def processLocus (cfg : Config) (st : GState) (est trueS : List Char) :
    Except Err (GState × List Char × List Char) :=
  match readLocusLines cfg est trueS with
  | .error e => .error e
  | .ok (allEst, allTrue, est2, true2) =>
    match processSamples cfg allEst allTrue
        { st with numMarkers := st.numMarkers + 1 } with
    | .error e => .error e
    | .ok st2 =>
      match readToEndline est2, readToEndline true2 with
      | some est3, some true3 => .ok (st2, est3, true3)
      | _, _ => .error .diverge

/-- The outer locus loop (`src/main.cc` lines 150-368): stop when the
estimated stream is at end of input, otherwise process one locus.  The fuel
argument is only a recursion bound; every successful locus iteration
consumes at least the terminating newline from the estimated stream, so
`est.length + 1` fuel always suffices (`runLoop_fuel_irrel` below). -/
def runLoop (cfg : Config) : Nat → GState → List Char → List Char → Except Err GState
  | 0, _, _, _ => .error .diverge
  | _ + 1, st, [], _ => .ok st
  | fuel + 1, st, c :: est, trueS =>
    match processLocus cfg st (c :: est) trueS with
    | .error e => .error e
    | .ok (st', est', true') => runLoop cfg fuel st' est' true'

/-- The whole core computation of `main`: run the locus loop from the
initial state on the two raw genotype streams (and the pre-classified
local-ancestry streams, one per sample, when enabled). -/
def run (cfg : Config) (ancStreams : List (List Int)) (est trueS : List Char) :
    Except Err GState :=
  runLoop cfg (est.length + 1) (initState cfg ancStreams) est trueS

/-- The orientation state of sample `samp` (`homologsInverted[samp]`):
`-1` unset, `0` aligned, `1` inverted. -/
def orientOf (st : GState) (samp : Nat) : Int :=
  st.homologsInverted.getD samp (-1)

/-- The personal switch count of sample `samp` (`indivNumSwitches[samp]`). -/
def indivOf (st : GState) (samp : Nat) : Nat :=
  st.indivNumSwitches.getD samp 0

/-- The configuration with all options at their defaults (only the three
required positional arguments given). -/
def defaultCfg (n : Nat) : Config :=
  { numSamples := n, skipNumInEst := 0, trioParentsInSuccession := false,
    otherParentIdx := none, omitIndSet := [], useLocalAnc := false }

/-- Length of the `allTrueAlleles` buffer (`src/main.cc` line 125). -/
def trueArrayLen (numSamples : Nat) : Nat := 2 * numSamples

/-- The two partner-array indices `allTrueAlleles[otherParent*2]` and
`allTrueAlleles[otherParent*2+1]` read by the trio check under the
in-succession convention, where `otherParent = samp + 1`
(`src/main.cc` lines 248, 253-254). -/
def trioSuccPartnerReads (samp : Nat) : List Nat :=
  [(samp + 1) * 2, (samp + 1) * 2 + 1]

/-- Scenario A configuration: one sample, no options. -/
def cfgA : Config := defaultCfg 1

/-- Scenario A estimated stream. -/
def estA : List Char := "01\n10\n01\n".toList

/-- Scenario A true stream. -/
def trueA : List Char := "01\n01\n10\n".toList

/-- The result of the first Scenario A locus (state and remaining streams),
extracted from the model's run. -/
def stepA1 : GState × List Char × List Char :=
  (processLocus cfgA (initState cfgA []) estA trueA).toOption.getD
    (initState cfgA [], [], [])

/-- The result of the second Scenario A locus. -/
def stepA2 : GState × List Char × List Char :=
  (processLocus cfgA stepA1.1 stepA1.2.1 stepA1.2.2).toOption.getD
    (initState cfgA [], [], [])

/-- The result of the third Scenario A locus. -/
def stepA3 : GState × List Char × List Char :=
  (processLocus cfgA stepA2.1 stepA2.2.1 stepA2.2.2).toOption.getD
    (initState cfgA [], [], [])

/-- Configuration exercising trio-in-succession together with local-ancestry
stratification (`-t` and `-l`), two samples. -/
def cfgC3 : Config :=
  { numSamples := 2, skipNumInEst := 0, trioParentsInSuccession := true,
    otherParentIdx := none, omitIndSet := [], useLocalAnc := true }

/-- One pre-classified ancestry record per sample for one locus. -/
def ancC3 : List (List Int) := [[0], [0]]

/-- The C3 failing input's estimated stream: one locus, both samples
heterozygous. -/
def estC3 : List Char := "0101\n".toList

/-- The C3 failing input's true stream: one locus, both samples true
heterozygous with differing transmitted (first) haplotypes. -/
def trueC3 : List Char := "0110\n".toList

/-- Final state of the run on the C3 failing input. -/
def stC3 : GState :=
  (run cfgC3 ancC3 estC3 trueC3).toOption.getD (initState cfgC3 ancC3)

/-- Result of the first per-sample iteration on the C3 failing input. -/
def sampC3 : GState × SampOutcome :=
  (processSamp cfgC3 "0101".toList "0110".toList 0
    (initState cfgC3 ancC3)).toOption.getD (initState cfgC3 ancC3, .processed)

/-- Final state of the run on a one-sample input whose estimated line has
one character too many. -/
def stC6 : GState :=
  (run (defaultCfg 1) [] "010\n".toList "01\n".toList).toOption.getD
    (initState (defaultCfg 1) [])

/-- Two samples forming one trio parent pair, in-succession convention. -/
def cfgT : Config :=
  { numSamples := 2, skipNumInEst := 0, trioParentsInSuccession := true,
    otherParentIdx := none, omitIndSet := [], useLocalAnc := false }

/-- Two samples forming one trio parent pair, explicit pairing table. -/
def cfgP : Config :=
  { numSamples := 2, skipNumInEst := 0, trioParentsInSuccession := false,
    otherParentIdx := some [1, 0], omitIndSet := [], useLocalAnc := false }

/-- A per-sample site that cannot make any of the phase tracker's
assertions fire: the true alleles are in the allowed alphabet and, when
neither is missing, the estimated pair is either fully missing or a
(possibly swapped) copy of the true pair.  This is exactly the condition
under which one per-sample iteration cannot hit `Err.fatal`, stated on the
input characters alone. -/
def consistentPair (e0 e1 t0 t1 : Char) : Prop :=
  (validTrueAllele t0 ∧ validTrueAllele t1) ∧
  (t0 ≠ '9' → t1 ≠ '9' →
    (e0 = '?' ∧ e1 = '?') ∨ (e0 = t0 ∧ e1 = t1) ∨ (e0 = t1 ∧ e1 = t0))

/-- A well-formed genotype line for `n` samples: exactly `2*n` allele
characters, none of them a line terminator. -/
def lineOK (n : Nat) (l : List Char) : Prop := l.length = 2 * n ∧ '\n' ∉ l

/-- Well-formed input for a default-configuration run, presented as the
lists of lines of the two streams: equally many loci in both streams, every
line complete, and every sample's site consistent at every locus. -/
def wellFormedInput (n : Nat) (estLines trueLines : List (List Char)) : Prop :=
  estLines.length = trueLines.length ∧
  (∀ l ∈ estLines, lineOK n l) ∧ (∀ l ∈ trueLines, lineOK n l) ∧
  ∀ i s, i < estLines.length → s < n →
    consistentPair ((estLines.getD i []).getD (s * 2) garbageChar)
                   ((estLines.getD i []).getD (s * 2 + 1) garbageChar)
                   ((trueLines.getD i []).getD (s * 2) garbageChar)
                   ((trueLines.getD i []).getD (s * 2 + 1) garbageChar)

/-- The successful result of one per-sample step, extracted to state
concrete instances. -/
def sampResult (cfg : Config) (allEst allTrue : List Char) (samp : Nat)
    (st : GState) : GState × SampOutcome :=
  (processSamp cfg allEst allTrue samp st).toOption.getD (st, .processed)

/-- Every stored orientation is unset, aligned or inverted. -/
def orientOK (st : GState) : Prop :=
  ∀ o ∈ st.homologsInverted, o = -1 ∨ o = 0 ∨ o = 1

/-- Rebuild a raw stream from its list of newline-terminated lines. -/
def linesToStream (ls : List (List Char)) : List Char :=
  ls.foldr (fun l acc => l ++ '\n' :: acc) []

/-- Swap the two characters belonging to sample `s` in one genotype line
(the global estimated-homolog inversion of claim C8). -/
def swapPairAt (s : Nat) (l : List Char) : List Char :=
  if 2 * s + 1 < l.length then
    (l.set (2 * s) (l.getD (2 * s + 1) garbageChar)).set (2 * s + 1)
      (l.getD (2 * s) garbageChar)
  else l

/-- Invert the stored orientation of sample `s` (unset stays unset). -/
def flipOrientAt (s : Nat) (l : List Int) : List Int :=
  if l.getD s (-1) = -1 then l else l.set s (1 - l.getD s (-1))

/-- The state reached by the run on the sample-`s`-inverted estimated
stream, in terms of the state of the original run: identical except that
sample `s`'s orientation is inverted. -/
def flipState (s : Nat) (st : GState) : GState :=
  { st with homologsInverted := flipOrientAt s st.homologsInverted }

/-! ### Generic list lemmas -/

theorem getD_set_self {α} : ∀ (l : List α) (i : Nat) (v d : α), i < l.length →
    (l.set i v).getD i d = v
  | [], i, v, d, h => absurd h (by simp)
  | _ :: _, 0, _, _, _ => rfl
  | _ :: l, i + 1, v, d, h => getD_set_self l i v d (by simpa using h)

theorem getD_set_ne {α} : ∀ (l : List α) (i j : Nat) (v d : α), i ≠ j →
    (l.set i v).getD j d = l.getD j d
  | [], _, _, _, _, _ => by simp
  | _ :: _, 0, 0, _, _, h => absurd rfl h
  | _ :: _, 0, _ + 1, _, _, _ => rfl
  | _ :: _, _ + 1, 0, _, _, _ => rfl
  | _ :: l, i + 1, j + 1, v, d, h => getD_set_ne l i j v d (by omega)

theorem mem_of_mem_set {α} : ∀ (l : List α) (i : Nat) (v x : α),
    x ∈ l.set i v → x ∈ l ∨ x = v
  | [], _, _, _, h => by simp at h
  | a :: l, 0, v, x, h => by
    rcases List.mem_cons.1 h with h | h
    · exact Or.inr h
    · exact Or.inl (List.mem_cons_of_mem a h)
  | a :: l, i + 1, v, x, h => by
    rcases List.mem_cons.1 h with h | h
    · exact Or.inl (h ▸ List.mem_cons_self a l)
    · rcases mem_of_mem_set l i v x h with h | h
      · exact Or.inl (List.mem_cons_of_mem a h)
      · exact Or.inr h

theorem getD_ne_default {α} {l : List α} {i : Nat} {d : α}
    (h : l.getD i d ≠ d) : i < l.length := by
  by_contra hi
  rw [List.getD_eq_default] at h
  · exact h rfl
  · omega

/-! ### C9: bounds of the in-succession partner reads -/

/-- C9: under the in-succession convention the partner-array reads
`allTrueAlleles[2*(samp+1)]`, `allTrueAlleles[2*(samp+1)+1]` stay below the
buffer length `2*numSamples` at every even sample index below `numSamples`
iff `numSamples` is even; when `numSamples` is odd, the reads at the last
sample (the even index `numSamples - 1`) run past the end of the buffer. -/
theorem trioSucc_partner_reads_inBounds_iff (numSamples : Nat) :
    ((∀ samp, samp < numSamples → samp % 2 = 0 →
        ∀ idx ∈ trioSuccPartnerReads samp, idx < trueArrayLen numSamples)
      ↔ numSamples % 2 = 0) ∧
    (numSamples % 2 = 1 →
      (numSamples - 1) % 2 = 0 ∧ numSamples - 1 < numSamples ∧
      ∃ idx ∈ trioSuccPartnerReads (numSamples - 1),
        trueArrayLen numSamples ≤ idx) := by
  constructor
  · constructor
    · intro h
      by_contra hodd
      have h1 : numSamples % 2 = 1 := by omega
      have h2 := h (numSamples - 1) (by omega) (by omega)
        ((numSamples - 1 + 1) * 2) (by simp [trioSuccPartnerReads])
      simp only [trueArrayLen] at h2
      omega
    · intro he samp h1 h2 idx hidx
      simp only [trioSuccPartnerReads, List.mem_cons, List.mem_singleton,
        List.not_mem_nil, or_false] at hidx
      rcases hidx with rfl | rfl <;> simp only [trueArrayLen] <;> omega
  · intro h1
    refine ⟨by omega, by omega, (numSamples - 1 + 1) * 2,
      by simp [trioSuccPartnerReads], ?_⟩
    simp only [trueArrayLen]
    omega

/-- Concrete instance of the out-of-bounds half of the preceding theorem at
`numSamples = 3`. -/
theorem trioSucc_partner_reads_inBounds_iff_witness :
    ∃ idx ∈ trioSuccPartnerReads (3 - 1), trueArrayLen 3 ≤ idx :=
  ((trioSucc_partner_reads_inBounds_iff 3).2 (by decide)).2.2

/-! ### C1: Scenario A -/

/-- C1: on one sample with estimated stream `"01\n10\n01\n"` and true
stream `"01\n01\n10\n"`, the first locus sets the orientation to aligned
(0) while counting nothing, the second locus is a heterozygous site whose
mismatch is the single switch error and inverts the orientation, the third
locus is a heterozygous site with no switch, and the run ends with
`numSwitchErrors = 1`, `totalHetSites = 2` and reported rate `1/2`. -/
theorem scenarioA_run :
    processLocus cfgA (initState cfgA []) estA trueA = .ok stepA1 ∧
    orientOf stepA1.1 0 = 0 ∧ stepA1.1.totalHetSites = 0 ∧
    stepA1.1.numSwitchErrors = 0 ∧
    processLocus cfgA stepA1.1 stepA1.2.1 stepA1.2.2 = .ok stepA2 ∧
    stepA2.1.numSwitchErrors = 1 ∧ stepA2.1.totalHetSites = 1 ∧
    orientOf stepA2.1 0 = 1 ∧
    processLocus cfgA stepA2.1 stepA2.2.1 stepA2.2.2 = .ok stepA3 ∧
    stepA3.1.numSwitchErrors = 1 ∧ stepA3.1.totalHetSites = 2 ∧
    orientOf stepA3.1 0 = 1 ∧
    stepA3.2.1 = [] ∧
    run cfgA [] estA trueA = .ok stepA3.1 ∧
    ((stepA3.1.numSwitchErrors : ℚ) / (stepA3.1.totalHetSites : ℚ) = 1 / 2) := by
  refine ⟨by decide, by decide, by decide, by decide, by decide, by decide,
    by decide, by decide, by decide, by decide, by decide, by decide,
    by decide, by decide, ?_⟩
  have h1 : stepA3.1.numSwitchErrors = 1 := by decide
  have h2 : stepA3.1.totalHetSites = 2 := by decide
  rw [h1, h2]
  norm_num

/-! ### C3: the trio in-succession skip loses an ancestry read -/

/-- C3 failing input: with trio-in-succession and local ancestry both
enabled, at a triple-heterozygous locus the `samp++` skip jumps over the
partner's whole iteration, so the partner's ancestry stream is not read at
that locus: after the single locus, sample 0's ancestry stream has been
consumed but sample 1's record is still unread, and the per-sample loop
took the double advance. -/
theorem trioSkip_skips_partner_ancestry_read :
    run cfgC3 ancC3 estC3 trueC3 = .ok stC3 ∧
    stC3.numMarkers = 1 ∧
    stC3.ancStreams.getD 0 [] = [] ∧
    stC3.ancStreams.getD 1 [] = [0] ∧
    processSamp cfgC3 "0101".toList "0110".toList 0 (initState cfgC3 ancC3) =
      .ok sampC3 ∧
    sampC3.2 = .trioSkip true ∧
    outcomeAdvance (.trioSkip true) = 2 := by
  refine ⟨by decide, by decide, by decide, by decide, by decide, by decide,
    by decide⟩

/-! ### Structural lemmas about one per-sample iteration -/

theorem ancStep_fields {cfg : Config} {samp : Nat} {st : GState} {a : Int}
    {stA : GState} (h : ancStep cfg samp st = .ok (a, stA)) :
    stA.homologsInverted = st.homologsInverted ∧
    stA.prevSwitchError = st.prevSwitchError ∧
    stA.indivNumSwitches = st.indivNumSwitches ∧
    stA.numMissing = st.numMissing ∧
    stA.numSwitchErrors = st.numSwitchErrors ∧
    stA.totalHetSites = st.totalHetSites ∧
    stA.numMarkers = st.numMarkers ∧
    stA.numAncClassSwitchErrors = st.numAncClassSwitchErrors ∧
    stA.totalAncClassHetSites = st.totalAncClassHetSites ∧
    stA.oneHapTruthWarn = st.oneHapTruthWarn := by
  unfold ancStep at h
  split at h
  · split at h
    · exact absurd h (by simp)
    · simp only [Except.ok.injEq, Prod.mk.injEq] at h
      rw [← h.2]
      simp
  · simp only [Except.ok.injEq, Prod.mk.injEq] at h
    rw [← h.2]
    simp

theorem phaseTrack_spec {e0 e1 t0 t1 : Char} {a : Int} {samp : Nat}
    {st st' : GState} {out : SampOutcome}
    (h : phaseTrack e0 e1 t0 t1 a samp st = .ok (st', out)) :
    (out = .missingEst ∧ st' = { st with numMissing := st.numMissing + 1 }) ∨
    (out = .processed ∧ orientOf st samp = -1 ∧ t0 = t1 ∧ st' = st) ∨
    (out = .processed ∧ orientOf st samp = -1 ∧ t0 ≠ t1 ∧
      (st' = { st with homologsInverted := st.homologsInverted.set samp 0 } ∨
       st' = { st with homologsInverted := st.homologsInverted.set samp 1 })) ∨
    (out = .processed ∧ orientOf st samp ≠ -1 ∧
      st' = hetBump a t0 t1 st) ∨
    (out = .processed ∧ orientOf st samp ≠ -1 ∧ t0 ≠ t1 ∧
      st' = switchBump a samp (hetBump a t0 t1 st)) := by
  unfold phaseTrack at h
  split at h
  · -- missing estimated call
    split at h
    · simp only [Except.ok.injEq, Prod.mk.injEq] at h
      exact Or.inl ⟨h.2.symm, h.1.symm⟩
    · exact absurd h (by simp)
  · split at h
    · -- orientation unset
      rename_i hunset
      have hu : orientOf st samp = -1 := hunset
      split at h
      · -- true homozygous
        rename_i ht
        split at h
        · simp only [Except.ok.injEq, Prod.mk.injEq] at h
          exact Or.inr (Or.inl ⟨h.2.symm, hu, ht, h.1.symm⟩)
        · exact absurd h (by simp)
      · -- true heterozygous
        rename_i ht
        split at h
        · split at h
          · simp only [Except.ok.injEq, Prod.mk.injEq] at h
            exact Or.inr (Or.inr (Or.inl ⟨h.2.symm, hu, ht, Or.inl h.1.symm⟩))
          · exact absurd h (by simp)
        · split at h
          · simp only [Except.ok.injEq, Prod.mk.injEq] at h
            exact Or.inr (Or.inr (Or.inl ⟨h.2.symm, hu, ht, Or.inr h.1.symm⟩))
          · exact absurd h (by simp)
    · -- orientation set
      rename_i hset
      have hs : orientOf st samp ≠ -1 := hset
      split at h
      · -- est[h0] matches true[0]
        split at h
        · simp only [Except.ok.injEq, Prod.mk.injEq] at h
          exact Or.inr (Or.inr (Or.inr (Or.inl ⟨h.2.symm, hs, h.1.symm⟩)))
        · exact absurd h (by simp)
      · split at h
        · -- mismatch: switch error
          rename_i hm0 hm1
          have ht : t0 ≠ t1 := fun he => hm0 (by rw [he]; exact hm1.1)
          simp only [Except.ok.injEq, Prod.mk.injEq] at h
          exact Or.inr (Or.inr (Or.inr (Or.inr ⟨h.2.symm, hs, ht, h.1.symm⟩)))
        · exact absurd h (by simp)

theorem processSamp_spec {cfg : Config} {allEst allTrue : List Char}
    {samp : Nat} {st st' : GState} {out : SampOutcome}
    (h : processSamp cfg allEst allTrue samp st = .ok (st', out)) :
    ∃ a stA, ancStep cfg samp st = .ok (a, stA) ∧
      ((out = .missingTrue ∧
        (allTrue.getD (samp * 2) garbageChar = '9' ∨
         allTrue.getD (samp * 2 + 1) garbageChar = '9') ∧
        st' = { stA with oneHapTruthWarn := stA.oneHapTruthWarn ||
                 !(allTrue.getD (samp * 2) garbageChar == '9' &&
                   allTrue.getD (samp * 2 + 1) garbageChar == '9') }) ∨
       (out = .trioSkip cfg.trioParentsInSuccession ∧
        (trioApplicable cfg samp &&
          tripleHetAmbig allTrue samp (trioOtherParent cfg samp)) = true ∧
        st' = stA) ∨
       ((trioApplicable cfg samp &&
          tripleHetAmbig allTrue samp (trioOtherParent cfg samp)) = false ∧
        allTrue.getD (samp * 2) garbageChar ≠ '9' ∧
        allTrue.getD (samp * 2 + 1) garbageChar ≠ '9' ∧
        phaseTrack (allEst.getD (samp * 2) garbageChar)
          (allEst.getD (samp * 2 + 1) garbageChar)
          (allTrue.getD (samp * 2) garbageChar)
          (allTrue.getD (samp * 2 + 1) garbageChar) a samp stA =
            .ok (st', out))) := by
  unfold processSamp at h
  split at h
  · exact absurd h (by simp)
  · rename_i a stA heq
    refine ⟨a, stA, heq, ?_⟩
    split at h
    · split at h
      · rename_i h9
        simp only [Except.ok.injEq, Prod.mk.injEq] at h
        exact Or.inl ⟨h.2.symm, h9, h.1.symm⟩
      · rename_i h9
        push_neg at h9
        split at h
        · exact absurd h (by simp)
        · split at h
          · rename_i htrio
            simp only [Except.ok.injEq, Prod.mk.injEq] at h
            exact Or.inr (Or.inl ⟨h.2.symm, htrio, h.1.symm⟩)
          · rename_i htrio
            exact Or.inr (Or.inr ⟨by simpa using htrio, h9.1, h9.2, h⟩)
    · exact absurd h (by simp)

theorem hetBump_homologs (a : Int) (t0 t1 : Char) (st : GState) :
    (hetBump a t0 t1 st).homologsInverted = st.homologsInverted := by
  unfold hetBump; split <;> rfl

theorem hetBump_nse (a : Int) (t0 t1 : Char) (st : GState) :
    (hetBump a t0 t1 st).numSwitchErrors = st.numSwitchErrors := by
  unfold hetBump; split <;> rfl

theorem hetBump_indiv (a : Int) (t0 t1 : Char) (st : GState) :
    (hetBump a t0 t1 st).indivNumSwitches = st.indivNumSwitches := by
  unfold hetBump; split <;> rfl

theorem hetBump_markers (a : Int) (t0 t1 : Char) (st : GState) :
    (hetBump a t0 t1 st).numMarkers = st.numMarkers := by
  unfold hetBump; split <;> rfl

theorem hetBump_het (a : Int) (t0 t1 : Char) (st : GState) :
    (hetBump a t0 t1 st).totalHetSites =
      st.totalHetSites + (if t0 ≠ t1 then 1 else 0) := by
  unfold hetBump; split <;> simp_all

theorem switchBump_nse (a : Int) (samp : Nat) (st : GState) :
    (switchBump a samp st).numSwitchErrors = st.numSwitchErrors + 1 := rfl

theorem switchBump_het (a : Int) (samp : Nat) (st : GState) :
    (switchBump a samp st).totalHetSites = st.totalHetSites := rfl

theorem switchBump_homologs (a : Int) (samp : Nat) (st : GState) :
    (switchBump a samp st).homologsInverted =
      st.homologsInverted.set samp (1 - st.homologsInverted.getD samp (-1)) :=
  rfl

theorem switchBump_indiv (a : Int) (samp : Nat) (st : GState) :
    (switchBump a samp st).indivNumSwitches =
      bumpAt st.indivNumSwitches samp := rfl

/-! ### C4: the orientation state machine -/

/-- C4: over one per-sample step, an orientation already in {aligned,
inverted} stays in {aligned, inverted} — it is never reset to unset — and
moves only by the toggle `o ↦ 1 - o`, toggling exactly when the global and
the per-sample switch counters are incremented; while the orientation is
unset, the step counts nothing, the orientation stays unset unless the step
fully processes a true-heterozygous site, and on that first informative
site it becomes aligned or inverted with both counters untouched. -/
theorem orientation_transitions {cfg : Config} {allEst allTrue : List Char}
    {samp : Nat} {st st' : GState} {out : SampOutcome}
    (hlen : samp < st.indivNumSwitches.length)
    (h : processSamp cfg allEst allTrue samp st = .ok (st', out)) :
    ((orientOf st samp = 0 ∨ orientOf st samp = 1) →
      (orientOf st' samp = 0 ∨ orientOf st' samp = 1) ∧
      (orientOf st' samp = orientOf st samp ∨
       orientOf st' samp = 1 - orientOf st samp) ∧
      (orientOf st' samp ≠ orientOf st samp ↔
        st'.numSwitchErrors = st.numSwitchErrors + 1) ∧
      (orientOf st' samp ≠ orientOf st samp ↔
        indivOf st' samp = indivOf st samp + 1)) ∧
    (orientOf st samp = -1 →
      st'.numSwitchErrors = st.numSwitchErrors ∧
      st'.totalHetSites = st.totalHetSites ∧
      (¬(out = .processed ∧ allTrue.getD (samp * 2) garbageChar ≠
          allTrue.getD (samp * 2 + 1) garbageChar) →
        orientOf st' samp = -1) ∧
      (out = .processed →
        allTrue.getD (samp * 2) garbageChar ≠
          allTrue.getD (samp * 2 + 1) garbageChar →
        samp < st.homologsInverted.length →
        (orientOf st' samp = 0 ∨ orientOf st' samp = 1))) := by
  obtain ⟨a, stA, hanc, hcase⟩ := processSamp_spec h
  obtain ⟨hH, hP, hI, hM, hS, hT, hK, hA1, hA2, hW⟩ := ancStep_fields hanc
  have unchangedCase :
      ∀ st₂ : GState, st₂.homologsInverted = st.homologsInverted →
        st₂.numSwitchErrors = st.numSwitchErrors →
        st₂.indivNumSwitches = st.indivNumSwitches →
      ((orientOf st samp = 0 ∨ orientOf st samp = 1) →
        (orientOf st₂ samp = 0 ∨ orientOf st₂ samp = 1) ∧
        (orientOf st₂ samp = orientOf st samp ∨
         orientOf st₂ samp = 1 - orientOf st samp) ∧
        (orientOf st₂ samp ≠ orientOf st samp ↔
          st₂.numSwitchErrors = st.numSwitchErrors + 1) ∧
        (orientOf st₂ samp ≠ orientOf st samp ↔
          indivOf st₂ samp = indivOf st samp + 1)) := by
    intro st₂ h1 h2 h4 ho
    have ho1 : orientOf st₂ samp = orientOf st samp := by
      simp only [orientOf, h1]
    refine ⟨by rw [ho1]; exact ho, Or.inl ho1, ?_, ?_⟩
    · rw [ho1, h2]; simp
    · rw [ho1]; simp only [indivOf, h4]; simp
  rcases hcase with ⟨hout, -, rfl⟩ | ⟨hout, -, rfl⟩ | ⟨-, -, -, hpt⟩
  · -- missing truth data: nothing changes but the warning flag
    subst hout
    constructor
    · exact unchangedCase _ hH hS hI
    · intro hu
      refine ⟨hS, hT, fun _ => ?_, fun hco => by simp at hco⟩
      simp only [orientOf, hH]
      exact hu
  · -- trio-ambiguous skip: state unchanged
    subst hout
    constructor
    · exact unchangedCase _ hH hS hI
    · intro hu
      refine ⟨hS, hT, fun _ => ?_, fun hco => by simp at hco⟩
      simp only [orientOf, hH]
      exact hu
  · rcases phaseTrack_spec hpt with ⟨hout, rfl⟩ | ⟨hout, huns, hteq, rfl⟩ |
      ⟨hout, huns, htne, hset01⟩ | ⟨hout, hsetO, rfl⟩ | ⟨hout, hsetO, htne, rfl⟩
    · -- missing estimated call
      subst hout
      constructor
      · exact unchangedCase _ hH hS hI
      · intro hu
        refine ⟨hS, hT, fun _ => ?_, fun hco => by simp at hco⟩
        simp only [orientOf, hH]
        exact hu
    · -- unset orientation, homozygous site: state unchanged
      subst hout
      constructor
      · exact unchangedCase _ hH hS hI
      · intro hu
        refine ⟨hS, hT, fun _ => ?_, fun _ hne _ => absurd hteq hne⟩
        simp only [orientOf, hH]
        exact hu
    · -- unset orientation, heterozygous site: orientation becomes 0 or 1
      subst hout
      have hu0 : orientOf st samp = -1 := by
        simpa only [orientOf, hH] using huns
      constructor
      · intro ho
        rw [hu0] at ho
        rcases ho with ho | ho <;> exact absurd ho (by decide)
      · intro _
        rcases hset01 with rfl | rfl
        · refine ⟨hS, hT, fun hc => absurd ⟨rfl, htne⟩ hc, fun _ _ hl => ?_⟩
          left
          simp only [orientOf]
          exact getD_set_self _ _ _ _ (by rw [hH]; exact hl)
        · refine ⟨hS, hT, fun hc => absurd ⟨rfl, htne⟩ hc, fun _ _ hl => ?_⟩
          right
          simp only [orientOf]
          exact getD_set_self _ _ _ _ (by rw [hH]; exact hl)
    · -- orientation set, matching site
      subst hout
      have hhet := hetBump_homologs a (allTrue.getD (samp * 2) garbageChar)
        (allTrue.getD (samp * 2 + 1) garbageChar) stA
      constructor
      · exact unchangedCase _ (hhet.trans hH)
          ((hetBump_nse _ _ _ _).trans hS)
          ((hetBump_indiv _ _ _ _).trans hI)
      · intro hu
        exact absurd (by simpa only [orientOf, hH] using hu) hsetO
    · -- orientation set, mismatch: switch error and toggle
      subst hout
      have hsO : orientOf st samp ≠ -1 := by
        simpa only [orientOf, hH] using hsetO
      have hlenH : samp < st.homologsInverted.length :=
        getD_ne_default hsO
      have hb := hetBump_homologs a (allTrue.getD (samp * 2) garbageChar)
        (allTrue.getD (samp * 2 + 1) garbageChar) stA
      have horig : (hetBump a (allTrue.getD (samp * 2) garbageChar)
          (allTrue.getD (samp * 2 + 1) garbageChar) stA).homologsInverted.getD
            samp (-1) = orientOf st samp := by
        rw [hb, hH]; rfl
      have h1 : orientOf
          (switchBump a samp (hetBump a (allTrue.getD (samp * 2) garbageChar)
            (allTrue.getD (samp * 2 + 1) garbageChar) stA)) samp =
          1 - orientOf st samp := by
        simp only [orientOf, switchBump_homologs, horig]
        exact getD_set_self _ _ _ _ (by rw [hb, hH]; exact hlenH)
      have h2 : (switchBump a samp (hetBump a
          (allTrue.getD (samp * 2) garbageChar)
          (allTrue.getD (samp * 2 + 1) garbageChar) stA)).numSwitchErrors =
          st.numSwitchErrors + 1 := by
        rw [switchBump_nse, hetBump_nse, hS]
      have h3 : indivOf (switchBump a samp (hetBump a
          (allTrue.getD (samp * 2) garbageChar)
          (allTrue.getD (samp * 2 + 1) garbageChar) stA)) samp =
          indivOf st samp + 1 := by
        simp only [indivOf, switchBump_indiv, hetBump_indiv, hI, bumpAt]
        exact getD_set_self _ _ _ _ hlen
      constructor
      · intro ho
        have htog : 1 - orientOf st samp ≠ orientOf st samp := by
          rcases ho with ho | ho <;> rw [ho] <;> decide
        refine ⟨?_, Or.inr h1, ?_, ?_⟩
        · rw [h1]; rcases ho with ho | ho <;> rw [ho]
          · right; decide
          · left; decide
        · rw [h1, h2]; simp [htog]
        · rw [h1, h3]; simp [htog]
      · intro hu
        exact absurd (by simpa only [orientOf, hH] using hu) hsetO

/-- Concrete instance of `orientation_transitions`: at the first
heterozygous site of Scenario A, the orientation becomes aligned or
inverted. -/
theorem orientation_transitions_witness :
    orientOf (sampResult (defaultCfg 1) "01".toList "01".toList 0
      (initState (defaultCfg 1) [])).1 0 = 0 ∨
    orientOf (sampResult (defaultCfg 1) "01".toList "01".toList 0
      (initState (defaultCfg 1) [])).1 0 = 1 :=
  ((orientation_transitions (by decide)
      (by decide : processSamp (defaultCfg 1) "01".toList "01".toList 0
        (initState (defaultCfg 1) []) =
        .ok ((sampResult (defaultCfg 1) "01".toList "01".toList 0
          (initState (defaultCfg 1) [])).1,
          (sampResult (defaultCfg 1) "01".toList "01".toList 0
            (initState (defaultCfg 1) [])).2))).2
    (by decide)).2.2.2 (by decide) (by decide) (by decide)

/-! ### C7: switch errors never outrun heterozygous opportunities -/

theorem processSamp_nse_le {cfg : Config} {aE aT : List Char} {samp : Nat}
    {st st' : GState} {out : SampOutcome}
    (h : processSamp cfg aE aT samp st = .ok (st', out))
    (hle : st.numSwitchErrors ≤ st.totalHetSites) :
    st'.numSwitchErrors ≤ st'.totalHetSites := by
  obtain ⟨a, stA, hanc, hcase⟩ := processSamp_spec h
  obtain ⟨hH, hP, hI, hM, hS, hT, hK, hA1, hA2, hW⟩ := ancStep_fields hanc
  rcases hcase with ⟨-, -, rfl⟩ | ⟨-, -, rfl⟩ | ⟨-, -, -, hpt⟩
  · show stA.numSwitchErrors ≤ stA.totalHetSites
    rw [hS, hT]; exact hle
  · rw [hS, hT]; exact hle
  · rcases phaseTrack_spec hpt with ⟨-, rfl⟩ | ⟨-, -, -, rfl⟩ |
      ⟨-, -, -, hset01⟩ | ⟨-, -, rfl⟩ | ⟨-, -, htne, rfl⟩
    · show stA.numSwitchErrors ≤ stA.totalHetSites
      rw [hS, hT]; exact hle
    · rw [hS, hT]; exact hle
    · rcases hset01 with rfl | rfl <;>
        (show stA.numSwitchErrors ≤ stA.totalHetSites; rw [hS, hT]; exact hle)
    · rw [hetBump_nse, hetBump_het, hS, hT]
      split <;> omega
    · rw [switchBump_nse, switchBump_het, hetBump_nse, hetBump_het, hS, hT,
        if_pos htne]
      omega

theorem processSamplesFrom_nse_le {cfg : Config} {aE aT : List Char} :
    ∀ (fuel samp : Nat) {st r : GState},
    processSamplesFrom cfg aE aT fuel samp st = .ok r →
    st.numSwitchErrors ≤ st.totalHetSites →
    r.numSwitchErrors ≤ r.totalHetSites := by
  intro fuel
  induction fuel with
  | zero =>
    intro samp st r h hle
    unfold processSamplesFrom at h
    split at h
    · exact absurd h (by simp)
    · simp only [Except.ok.injEq] at h
      rw [← h]; exact hle
  | succ n ih =>
    intro samp st r h hle
    unfold processSamplesFrom at h
    split at h
    · split at h
      · exact absurd h (by simp)
      · rename_i st1 out heq
        exact ih _ h (processSamp_nse_le heq hle)
    · simp only [Except.ok.injEq] at h
      rw [← h]; exact hle

theorem processLocus_nse_le {cfg : Config} {st : GState}
    {est trueS : List Char} {st' : GState} {est' true' : List Char}
    (h : processLocus cfg st est trueS = .ok (st', est', true'))
    (hle : st.numSwitchErrors ≤ st.totalHetSites) :
    st'.numSwitchErrors ≤ st'.totalHetSites := by
  unfold processLocus at h
  split at h
  · exact absurd h (by simp)
  · split at h
    · exact absurd h (by simp)
    · rename_i st2 hps
      split at h
      · simp only [Except.ok.injEq, Prod.mk.injEq] at h
        rw [← h.1]
        exact processSamplesFrom_nse_le _ _ hps hle
      · exact absurd h (by simp)

theorem runLoop_nse_le {cfg : Config} :
    ∀ (fuel : Nat) {st : GState} {est trueS : List Char} {st' : GState},
    runLoop cfg fuel st est trueS = .ok st' →
    st.numSwitchErrors ≤ st.totalHetSites →
    st'.numSwitchErrors ≤ st'.totalHetSites := by
  intro fuel
  induction fuel with
  | zero =>
    intro st est trueS st' h hle
    exact absurd h (by simp [runLoop])
  | succ n ih =>
    intro st est trueS st' h hle
    match est, h with
    | [], h =>
      simp only [runLoop, Except.ok.injEq] at h
      rw [← h]; exact hle
    | c :: est, h =>
      rw [runLoop] at h
      split at h
      · exact absurd h (by simp)
      · rename_i st1 est1 true1 hpl
        exact ih h (processLocus_nse_le hpl hle)

/-- C7: in one per-sample step the personal switch counts of all other
samples are untouched, the stepped sample's personal count grows by at most
the growth of `totalHetSites`, and the growth of `numSwitchErrors` equals
the growth of that personal count (a switch is counted at most once per
counted heterozygous opportunity); consequently `numSwitchErrors` never
exceeds `totalHetSites` in any completed run. -/
theorem switch_count_bounded :
    (∀ (cfg : Config) (allEst allTrue : List Char) (samp : Nat)
        (st st' : GState) (out : SampOutcome),
      samp < st.indivNumSwitches.length →
      processSamp cfg allEst allTrue samp st = .ok (st', out) →
      (∀ j, j ≠ samp → indivOf st' j = indivOf st j) /\
      indivOf st samp ≤ indivOf st' samp /\
      indivOf st' samp + st.totalHetSites ≤
        indivOf st samp + st'.totalHetSites /\
      st'.numSwitchErrors + indivOf st samp =
        st.numSwitchErrors + indivOf st' samp /\
      (st.numSwitchErrors ≤ st.totalHetSites →
        st'.numSwitchErrors ≤ st'.totalHetSites)) /\
    (∀ (cfg : Config) (anc : List (List Int)) (est trueS : List Char)
        (st : GState),
      run cfg anc est trueS = .ok st →
      st.numSwitchErrors ≤ st.totalHetSites) := by
  constructor
  · intro cfg allEst allTrue samp st st' out hlen h
    obtain ⟨a, stA, hanc, hcase⟩ := processSamp_spec h
    obtain ⟨hH, hP, hI, hM, hS, hT, hK, hA1, hA2, hW⟩ := ancStep_fields hanc
    have base : ∀ st2 : GState,
        st2.indivNumSwitches = st.indivNumSwitches →
        st2.numSwitchErrors = st.numSwitchErrors →
        st.totalHetSites ≤ st2.totalHetSites →
        st2.totalHetSites ≤ st.totalHetSites + 1 →
        ((∀ j, j ≠ samp → indivOf st2 j = indivOf st j) /\
         indivOf st samp ≤ indivOf st2 samp /\
         indivOf st2 samp + st.totalHetSites ≤
           indivOf st samp + st2.totalHetSites /\
         st2.numSwitchErrors + indivOf st samp =
           st.numSwitchErrors + indivOf st2 samp /\
         (st.numSwitchErrors ≤ st.totalHetSites →
           st2.numSwitchErrors ≤ st2.totalHetSites)) := by
      intro st2 h1 h2 h3 h4
      refine ⟨fun j _ => by simp only [indivOf, h1],
        by simp only [indivOf, h1]; exact le_refl _, ?_, ?_, ?_⟩
      · simp only [indivOf, h1]; omega
      · simp only [indivOf, h1, h2]
      · intro hle; omega
    rcases hcase with ⟨-, -, rfl⟩ | ⟨-, -, rfl⟩ | ⟨-, -, -, hpt⟩
    · exact base _ hI hS (le_of_eq hT.symm) (le_trans (le_of_eq hT) (Nat.le_succ _))
    · exact base _ hI hS (le_of_eq hT.symm) (le_trans (le_of_eq hT) (Nat.le_succ _))
    · rcases phaseTrack_spec hpt with ⟨-, rfl⟩ | ⟨-, -, -, rfl⟩ |
        ⟨-, -, -, hset01⟩ | ⟨-, -, rfl⟩ | ⟨-, -, htne, rfl⟩
      · exact base _ hI hS (le_of_eq hT.symm) (le_trans (le_of_eq hT) (Nat.le_succ _))
      · exact base _ hI hS (le_of_eq hT.symm) (le_trans (le_of_eq hT) (Nat.le_succ _))
      · rcases hset01 with rfl | rfl <;>
          exact base _ hI hS (le_of_eq hT.symm) (le_trans (le_of_eq hT) (Nat.le_succ _))
      · refine base _ ((hetBump_indiv _ _ _ _).trans hI)
          ((hetBump_nse _ _ _ _).trans hS) ?_ ?_ <;>
          (rw [hetBump_het, hT]; split <;> omega)
      · -- mismatch: all three counters step together
        have e1 : (switchBump a samp (hetBump a
            (allTrue.getD (samp * 2) garbageChar)
            (allTrue.getD (samp * 2 + 1) garbageChar) stA)).numSwitchErrors =
            st.numSwitchErrors + 1 := by
          rw [switchBump_nse, hetBump_nse, hS]
        have e2 : (switchBump a samp (hetBump a
            (allTrue.getD (samp * 2) garbageChar)
            (allTrue.getD (samp * 2 + 1) garbageChar) stA)).totalHetSites =
            st.totalHetSites + 1 := by
          rw [switchBump_het, hetBump_het, hT, if_pos htne]
        have e3 : ∀ j, (switchBump a samp (hetBump a
            (allTrue.getD (samp * 2) garbageChar)
            (allTrue.getD (samp * 2 + 1) garbageChar) stA)).indivNumSwitches.getD j 0 =
            (bumpAt st.indivNumSwitches samp).getD j 0 := by
          intro j
          rw [switchBump_indiv, hetBump_indiv, hI]
        refine ⟨fun j hj => ?_, ?_, ?_, ?_, ?_⟩
        · simp only [indivOf, e3, bumpAt]
          exact getD_set_ne _ _ _ _ _ (fun hx => hj (hx.symm))
        · simp only [indivOf, e3, bumpAt]
          rw [getD_set_self _ _ _ _ hlen]
          omega
        · simp only [indivOf, e3, bumpAt, e2]
          rw [getD_set_self _ _ _ _ hlen]
          omega
        · simp only [indivOf, e3, bumpAt, e1]
          rw [getD_set_self _ _ _ _ hlen]
          omega
        · intro hle; rw [e1, e2]; omega
  · intro cfg anc est trueS st h
    unfold run at h
    exact runLoop_nse_le _ h (by simp [initState])

/-- Concrete instances of `switch_count_bounded`: the personal count of
sample 0 does not drop over its first site, and the Scenario A run ends
with `numSwitchErrors ≤ totalHetSites`. -/
theorem switch_count_bounded_witness :
    indivOf (initState cfgA []) 0 ≤
      indivOf (sampResult cfgA "10".toList "01".toList 0
        (initState cfgA [])).1 0 /\
    stepA3.1.numSwitchErrors ≤ stepA3.1.totalHetSites :=
  ⟨(switch_count_bounded.1 cfgA "10".toList "01".toList 0 (initState cfgA [])
      (sampResult cfgA "10".toList "01".toList 0 (initState cfgA [])).1
      (sampResult cfgA "10".toList "01".toList 0 (initState cfgA [])).2
      (by decide) (by decide)).2.1,
   switch_count_bounded.2 cfgA [] estA trueA stepA3.1 (by decide)⟩


/-! ### C2: the trio ambiguity filter -/

/-- C2: when the trio check applies to `samp` (in-succession at an even
index, or an explicit pairing table), at a site where the sample's true
alleles are non-missing and its estimated alleles are non-missing, a
successful per-sample step skips the site as trio-ambiguous exactly when
the three-part triple-heterozygosity condition holds; such a skip changes
no orientation and no counter, and under the in-succession convention the
per-sample loop then advances past the partner. -/
theorem trioFilter_skip_iff {cfg : Config} {allEst allTrue : List Char}
    {samp : Nat} {st st' : GState} {out : SampOutcome}
    (happ : trioApplicable cfg samp = true)
    (ht0 : allTrue.getD (samp * 2) garbageChar ≠ '9')
    (ht1 : allTrue.getD (samp * 2 + 1) garbageChar ≠ '9')
    (he0 : allEst.getD (samp * 2) garbageChar ≠ '?')
    (he1 : allEst.getD (samp * 2 + 1) garbageChar ≠ '?')
    (h : processSamp cfg allEst allTrue samp st = .ok (st', out)) :
    ((∃ b, out = .trioSkip b) ↔
      tripleHetAmbig allTrue samp (trioOtherParent cfg samp) = true) ∧
    (tripleHetAmbig allTrue samp (trioOtherParent cfg samp) = true →
      out = .trioSkip cfg.trioParentsInSuccession ∧
      st'.homologsInverted = st.homologsInverted ∧
      st'.numSwitchErrors = st.numSwitchErrors ∧
      st'.totalHetSites = st.totalHetSites ∧
      st'.numMissing = st.numMissing ∧
      st'.indivNumSwitches = st.indivNumSwitches ∧
      st'.numAncClassSwitchErrors = st.numAncClassSwitchErrors ∧
      st'.totalAncClassHetSites = st.totalAncClassHetSites) ∧
    (∀ fuel, samp < cfg.numSamples → out = .trioSkip true →
      processSamplesFrom cfg allEst allTrue (fuel + 1) samp st =
        processSamplesFrom cfg allEst allTrue fuel (samp + 2) st') := by
  obtain ⟨a, stA, hanc, hcase⟩ := processSamp_spec h
  obtain ⟨hH, hP, hI, hM, hS, hT, hK, hA1, hA2, hW⟩ := ancStep_fields hanc
  have key : tripleHetAmbig allTrue samp (trioOtherParent cfg samp) = true →
      out = .trioSkip cfg.trioParentsInSuccession ∧ st' = stA := by
    intro hamb
    rcases hcase with ⟨-, h9, -⟩ | ⟨hout, -, rfl⟩ | ⟨hfalse, -, -, -⟩
    · rcases h9 with h9 | h9
      · exact absurd h9 ht0
      · exact absurd h9 ht1
    · exact ⟨hout, rfl⟩
    · rw [happ, hamb] at hfalse
      exact absurd hfalse (by simp)
  refine ⟨⟨?_, fun hamb => ⟨_, (key hamb).1⟩⟩, ?_, ?_⟩
  · rintro ⟨b, rfl⟩
    rcases hcase with ⟨hout, -, -⟩ | ⟨-, htrio, -⟩ | ⟨-, -, -, hpt⟩
    · exact absurd hout (by simp)
    · simp only [Bool.and_eq_true] at htrio
      exact htrio.2
    · rcases phaseTrack_spec hpt with ⟨hout, -⟩ | ⟨hout, -⟩ | ⟨hout, -⟩ |
        ⟨hout, -⟩ | ⟨hout, -⟩ <;> exact absurd hout (by simp)
  · intro hamb
    obtain ⟨hout, rfl⟩ := key hamb
    exact ⟨hout, hH, hS, hT, hM, hI, hA1, hA2⟩
  · intro fuel hlt hout
    subst hout
    rw [processSamplesFrom, if_pos hlt, h]
    rfl

/-- Concrete instance of `trioFilter_skip_iff`: with in-succession trio
parents, the triple-heterozygous locus of the C3 scenario is skipped with
the double advance. -/
theorem trioFilter_skip_iff_witness :
    (sampResult cfgT "0101".toList "0110".toList 0 (initState cfgT [])).2 =
      .trioSkip true :=
  ((trioFilter_skip_iff (by decide) (by decide) (by decide) (by decide)
      (by decide)
      (by decide : processSamp cfgT "0101".toList "0110".toList 0
        (initState cfgT []) =
        .ok ((sampResult cfgT "0101".toList "0110".toList 0
            (initState cfgT [])).1,
          (sampResult cfgT "0101".toList "0110".toList 0
            (initState cfgT [])).2))).2.1 (by decide)).1

/-! ### C10: pair symmetry of the ambiguity predicate -/

theorem tripleHetAmbig_comm (allTrue : List Char) (s p : Int) :
    tripleHetAmbig allTrue s p = tripleHetAmbig allTrue p s := by
  apply Bool.eq_iff_iff.2
  simp only [tripleHetAmbig, Bool.and_eq_true, bne_iff_ne, ne_eq]
  constructor
  · rintro ⟨⟨x, y⟩, z⟩
    exact ⟨⟨y, x⟩, fun he => z he.symm⟩
  · rintro ⟨⟨x, y⟩, z⟩
    exact ⟨⟨y, x⟩, fun he => z he.symm⟩

/-- C10: the triple-heterozygous ambiguity condition is symmetric within a
parent pair, and under the explicit pairing-table convention, a locus that
is trio-ambiguous for parent `s` with partner `p` is also skipped as
trio-ambiguous in parent `p`'s own iteration (the loop counter, however,
is not advanced: the outcome carries `advancePartner = false`), provided
`p`'s iteration passes its earlier checks (valid, non-missing true
alleles; estimated alleles not the true-missing marker; no ancestry
stream). -/
theorem tripleHet_pair_symmetry :
    (∀ (allTrue : List Char) (s p : Int),
      tripleHetAmbig allTrue s p = tripleHetAmbig allTrue p s) ∧
    (∀ (cfg : Config) (allEst allTrue : List Char) (s p : Nat) (st : GState),
      cfg.trioParentsInSuccession = false →
      cfg.otherParentIdx.isSome = true →
      cfg.useLocalAnc = false →
      trioOtherParent cfg s = (p : Int) →
      trioOtherParent cfg p = (s : Int) →
      tripleHetAmbig allTrue (s : Int) (trioOtherParent cfg s) = true →
      validTrueAllele (allTrue.getD (p * 2) garbageChar) = true →
      validTrueAllele (allTrue.getD (p * 2 + 1) garbageChar) = true →
      allTrue.getD (p * 2) garbageChar ≠ '9' →
      allTrue.getD (p * 2 + 1) garbageChar ≠ '9' →
      allEst.getD (p * 2) garbageChar ≠ '9' →
      allEst.getD (p * 2 + 1) garbageChar ≠ '9' →
      processSamp cfg allEst allTrue p st = .ok (st, .trioSkip false)) := by
  refine ⟨tripleHetAmbig_comm, ?_⟩
  intro cfg allEst allTrue s p st hsucc hsome hanc hops hopp hamb hv0 hv1
    ht0 ht1 he0 he1
  have hps : tripleHetAmbig allTrue (p : Int) (trioOtherParent cfg p) = true := by
    rw [hopp, tripleHetAmbig_comm]
    rw [hops] at hamb
    exact hamb
  have happ : trioApplicable cfg p = true := by
    simp [trioApplicable, hsome]
  have hancstep : ancStep cfg p st = .ok (-1, st) := by
    simp [ancStep, hanc]
  unfold processSamp
  rw [hancstep]
  dsimp only
  rw [if_pos (by rw [hv0, hv1]; rfl)]
  rw [if_neg (by rintro (hx | hx); exact ht0 hx; exact ht1 hx)]
  rw [if_neg (by rintro (hx | hx); exact he0 hx; exact he1 hx)]
  rw [if_pos (by rw [happ, hps]; rfl)]
  rw [hsucc]

/-- Concrete instance of the pairing-table half of
`tripleHet_pair_symmetry` at the C3 genotypes with the table `[1, 0]`. -/
theorem tripleHet_pair_symmetry_witness :
    processSamp cfgP "0101".toList "0110".toList 1 (initState cfgP []) =
      .ok (initState cfgP [], .trioSkip false) :=
  tripleHet_pair_symmetry.2 cfgP "0101".toList "0110".toList 0 1
    (initState cfgP []) (by decide) (by decide) (by decide) (by decide)
    (by decide) (by decide) (by decide) (by decide) (by decide) (by decide)
    (by decide) (by decide)


/-! ### Reader lemmas -/

theorem readEstLoop_no_omit (twoN : Nat) :
    ∀ (cs : List Char) (i curHap : Nat) (acc : List Char),
    readEstLoop [] twoN i curHap acc cs = readTrueLoop twoN i acc cs := by
  intro cs
  induction cs with
  | nil => intro i curHap acc; rfl
  | cons c cs ih =>
    intro i curHap acc
    simp only [readEstLoop, readTrueLoop, List.not_mem_nil, if_false]
    split
    · rfl
    · split
      · exact ih (i + 1) (curHap + 1) (acc ++ [c])
      · rfl

theorem readTrueLoop_app (twoN : Nat) :
    ∀ (line rest acc : List Char) (i : Nat),
    '\n' ∉ line → i ≤ twoN →
    readTrueLoop twoN i acc (line ++ '\n' :: rest) =
      if i + line.length ≤ twoN then
        (acc ++ line, i + line.length, '\n' :: rest)
      else
        (acc ++ line.take (twoN - i), twoN,
         line.drop (twoN - i + 1) ++ '\n' :: rest) := by
  intro line
  induction line with
  | nil =>
    intro rest acc i hnl hle
    simp [readTrueLoop, hle]
  | cons c line ih =>
    intro rest acc i hnl hle
    have hc : c ≠ '\n' := fun he => hnl (he ▸ List.mem_cons_self c line)
    have hnl' : '\n' ∉ line := fun hm => hnl (List.mem_cons_of_mem c hm)
    rw [List.cons_append, readTrueLoop, if_neg hc]
    by_cases hi : i < twoN
    · rw [if_pos hi, ih rest (acc ++ [c]) (i + 1) hnl' hi]
      by_cases h2 : i + (c :: line).length ≤ twoN
      · simp only [List.length_cons] at h2 ⊢
        rw [if_pos (by omega), if_pos (by omega)]
        have hl : acc ++ [c] ++ line = acc ++ c :: line := by simp
        have hn : i + 1 + line.length = i + (line.length + 1) := by omega
        rw [hl, hn]
      · simp only [List.length_cons] at h2 ⊢
        rw [if_neg (by omega), if_neg (by omega)]
        have he1 : twoN - (i + 1) + 1 = twoN - i := by omega
        have he2 : twoN - i = (twoN - i - 1) + 1 := by omega
        have he3 : twoN - (i + 1) = twoN - i - 1 := by omega
        rw [he1, he2, List.take_succ_cons, List.drop_succ_cons, he3]
        simp
    · have hieq : i = twoN := by omega
      rw [if_neg hi, if_neg (by simp only [List.length_cons]; omega)]
      subst hieq
      simp only [Nat.sub_self, List.take_zero, List.append_nil,
        Nat.zero_add, List.drop_succ_cons, List.drop_zero]

theorem readToEndline_app :
    ∀ (line rest : List Char), '\n' ∉ line →
    readToEndline (line ++ '\n' :: rest) = some rest := by
  intro line
  induction line with
  | nil => intro rest _; rfl
  | cons c line ih =>
    intro rest hnl
    have hc : c ≠ '\n' := fun he => hnl (he ▸ List.mem_cons_self c line)
    simp only [List.cons_append, readToEndline, if_neg hc]
    exact ih rest (fun hm => hnl (List.mem_cons_of_mem c hm))

/-- Reading one complete default-configuration locus: too-few characters in
either line is fatal; otherwise exactly the first `2*numSamples` characters
of each line are collected, and any extra characters stay in the remainder
for the read-to-endline loop. -/
theorem readLocusLines_default (n : Nat) (lineE lineT restE restT : List Char)
    (hE : '\n' ∉ lineE) (hT : '\n' ∉ lineT) :
    readLocusLines (defaultCfg n) (lineE ++ '\n' :: restE)
        (lineT ++ '\n' :: restT) =
      if lineE.length < 2 * n then .error .fatal
      else if lineT.length < 2 * n then .error .fatal
      else .ok (lineE.take (2 * n), lineT.take (2 * n),
        (if lineE.length ≤ 2 * n then '\n' :: restE
         else lineE.drop (2 * n + 1) ++ '\n' :: restE),
        (if lineT.length ≤ 2 * n then '\n' :: restT
         else lineT.drop (2 * n + 1) ++ '\n' :: restT)) := by
  have hE' := readTrueLoop_app (2 * n) lineE restE [] 0 hE (Nat.zero_le _)
  have hT' := readTrueLoop_app (2 * n) lineT restT [] 0 hT (Nat.zero_le _)
  simp only [Nat.zero_add, Nat.sub_zero, List.nil_append] at hE' hT'
  by_cases h1 : lineE.length ≤ 2 * n
  · rw [if_pos h1] at hE'
    by_cases h2 : lineT.length ≤ 2 * n
    · rw [if_pos h2] at hT'
      unfold readLocusLines defaultCfg
      simp only [Nat.mul_zero, skipEst, readEstLoop_no_omit, hE', hT']
      by_cases h1e : lineE.length = 2 * n
      · by_cases h2e : lineT.length = 2 * n
        · repeat first | rw [if_pos (by omega)] | rw [if_neg (by omega)]
          rw [List.take_of_length_le (show lineE.length ≤ 2 * n by omega),
            List.take_of_length_le (show lineT.length ≤ 2 * n by omega)]
        · repeat first | rw [if_pos (by omega)] | rw [if_neg (by omega)]
      · repeat first | rw [if_pos (by omega)] | rw [if_neg (by omega)]
    · rw [if_neg h2] at hT'
      unfold readLocusLines defaultCfg
      simp only [Nat.mul_zero, skipEst, readEstLoop_no_omit, hE', hT']
      by_cases h1e : lineE.length = 2 * n
      · repeat first | rw [if_pos (by omega)] | rw [if_neg (by omega)]
        rw [List.take_of_length_le (show lineE.length ≤ 2 * n by omega)]
      · repeat first | rw [if_pos (by omega)] | rw [if_neg (by omega)]
  · rw [if_neg h1] at hE'
    by_cases h2 : lineT.length ≤ 2 * n
    · rw [if_pos h2] at hT'
      unfold readLocusLines defaultCfg
      simp only [Nat.mul_zero, skipEst, readEstLoop_no_omit, hE', hT']
      by_cases h2e : lineT.length = 2 * n
      · repeat first | rw [if_pos (by omega)] | rw [if_neg (by omega)]
        rw [List.take_of_length_le (show lineT.length ≤ 2 * n by omega)]
      · repeat first | rw [if_pos (by omega)] | rw [if_neg (by omega)]
    · rw [if_neg h2] at hT'
      unfold readLocusLines defaultCfg
      simp only [Nat.mul_zero, skipEst, readEstLoop_no_omit, hE', hT']
      repeat first | rw [if_pos (by omega)] | rw [if_neg (by omega)]

/-! ### Stream-consumption and fuel lemmas -/

theorem skipEst_le : ∀ (k : Nat) (cs cs' : List Char),
    skipEst k cs = .ok cs' → cs'.length ≤ cs.length := by
  intro k
  induction k with
  | zero =>
    intro cs cs' h
    simp only [skipEst, Except.ok.injEq] at h
    rw [h]
  | succ m ih =>
    intro cs cs' h
    cases cs with
    | nil =>
      rw [skipEst] at h
      simpa using ih [] cs' h
    | cons c cs =>
      rw [skipEst] at h
      split at h
      · exact absurd h (by simp)
      · exact le_trans (ih cs cs' h) (by simp)

theorem readEstLoop_rest_le (om : List Nat) (twoN : Nat) :
    ∀ (cs : List Char) (i curHap : Nat) (acc : List Char),
    (readEstLoop om twoN i curHap acc cs).2.2.length ≤ cs.length := by
  intro cs
  induction cs with
  | nil => intro i curHap acc; simp [readEstLoop]
  | cons c cs ih =>
    intro i curHap acc
    rw [readEstLoop]
    split
    · simp
    · split
      · split
        · exact le_trans (ih i (curHap + 1) acc) (by simp)
        · exact le_trans (ih (i + 1) (curHap + 1) (acc ++ [c])) (by simp)
      · simp

theorem readToEndline_lt : ∀ (cs cs' : List Char),
    readToEndline cs = some cs' → cs'.length < cs.length := by
  intro cs
  induction cs with
  | nil => intro cs' h; simp [readToEndline] at h
  | cons c cs ih =>
    intro cs' h
    rw [readToEndline] at h
    split at h
    · simp only [Option.some.injEq] at h
      rw [← h]
      simp
    · exact lt_trans (ih cs' h) (by simp)

theorem readLocusLines_est_le {cfg : Config} {est t aE aT : List Char}
    {est2 t2 : List Char}
    (h : readLocusLines cfg est t = .ok (aE, aT, est2, t2)) :
    est2.length ≤ est.length := by
  unfold readLocusLines at h
  split at h
  · exact absurd h (by simp)
  · rename_i est1 hskip
    split at h
    rename_i r heq
    split at h
    · exact absurd h (by simp)
    · split at h
      rename_i r2 heqT
      split at h
      · exact absurd h (by simp)
      · simp only [Except.ok.injEq, Prod.mk.injEq] at h
        have h1 := skipEst_le _ _ _ hskip
        have h2 := readEstLoop_rest_le cfg.omitIndSet (2 * cfg.numSamples)
          est1 0 0 []
        rw [heq] at h2
        have he : est2 = r := h.2.2.1.symm
        rw [he]
        exact le_trans h2 h1

theorem processLocus_consumes {cfg : Config} {st : GState}
    {est t : List Char} {st' : GState} {est' t' : List Char}
    (h : processLocus cfg st est t = .ok (st', est', t')) :
    est'.length < est.length := by
  unfold processLocus at h
  split at h
  · exact absurd h (by simp)
  · rename_i r hrl
    split at h
    · exact absurd h (by simp)
    · rename_i st2 hps
      split at h
      · rename_i est3 t3 hre hrt
        simp only [Except.ok.injEq, Prod.mk.injEq] at h
        obtain ⟨-, he, -⟩ := h
        rw [← he]
        exact lt_of_lt_of_le (readToEndline_lt _ _ hre)
          (readLocusLines_est_le hrl)
      · exact absurd h (by simp)

theorem runLoop_cons {cfg : Config} {fuel : Nat} {st : GState}
    {est trueS : List Char} (h : est ≠ []) :
    runLoop cfg (fuel + 1) st est trueS =
      match processLocus cfg st est trueS with
      | .error e => .error e
      | .ok (st', est', true') => runLoop cfg fuel st' est' true' := by
  cases est with
  | nil => exact absurd rfl h
  | cons c cs => rfl

theorem runLoop_fuel_irrel {cfg : Config} :
    ∀ (f1 f2 : Nat) (st : GState) (est t : List Char),
    est.length < f1 → est.length < f2 →
    runLoop cfg f1 st est t = runLoop cfg f2 st est t := by
  intro f1
  induction f1 with
  | zero => intro f2 st est t h1 _; omega
  | succ m ih =>
    intro f2 st est t h1 h2
    cases f2 with
    | zero => omega
    | succ g =>
      cases est with
      | nil => rfl
      | cons c cs =>
        rw [runLoop_cons (by simp), runLoop_cons (by simp)]
        cases hpl : processLocus cfg st (c :: cs) t with
        | error e => rfl
        | ok r =>
          obtain ⟨st', est', t'⟩ := r
          have hlt := processLocus_consumes hpl
          simp only [List.length_cons] at h1 h2 hlt
          exact ih g st' est' t' (by omega) (by omega)

/-! ### Fatal behaviour of the reader and of per-sample processing -/

theorem ancStep_error_fatal {cfg : Config} {samp : Nat} {st : GState}
    {e : Err} (h : ancStep cfg samp st = .error e) : e = .fatal := by
  unfold ancStep at h
  split at h
  · split at h
    · simp only [Except.error.injEq] at h
      exact h.symm
    · exact absurd h (by simp)
  · exact absurd h (by simp)

theorem phaseTrack_error_fatal {e0 e1 t0 t1 : Char} {a : Int} {samp : Nat}
    {st : GState} {e : Err}
    (h : phaseTrack e0 e1 t0 t1 a samp st = .error e) : e = .fatal := by
  unfold phaseTrack at h
  repeat' split at h
  all_goals simp_all

theorem processSamp_error_fatal {cfg : Config} {aE aT : List Char}
    {samp : Nat} {st : GState} {e : Err}
    (h : processSamp cfg aE aT samp st = .error e) : e = .fatal := by
  unfold processSamp at h
  split at h
  · rename_i e1 heq
    simp only [Except.error.injEq] at h
    exact h ▸ ancStep_error_fatal heq
  · split at h
    · split at h
      · exact absurd h (by simp)
      · split at h
        · simp only [Except.error.injEq] at h
          exact h.symm
        · split at h
          · exact absurd h (by simp)
          · exact phaseTrack_error_fatal h
    · simp only [Except.error.injEq] at h
      exact h.symm

theorem processSamp_bad_true {cfg : Config} {aE aT : List Char}
    {samp : Nat} {st : GState}
    (hanc : cfg.useLocalAnc = false)
    (hbad : ¬(validTrueAllele (aT.getD (samp * 2) garbageChar) = true ∧
              validTrueAllele (aT.getD (samp * 2 + 1) garbageChar) = true)) :
    processSamp cfg aE aT samp st = .error .fatal := by
  unfold processSamp
  rw [show ancStep cfg samp st = .ok (-1, st) by simp [ancStep, hanc]]
  dsimp only
  rw [if_neg (by simpa only [Bool.and_eq_true] using hbad)]

theorem defaultCfg_advance {n : Nat} {aE aT : List Char} {samp : Nat}
    {st st' : GState} {out : SampOutcome}
    (h : processSamp (defaultCfg n) aE aT samp st = .ok (st', out)) :
    outcomeAdvance out = 1 := by
  obtain ⟨a, stA, hanc, hcase⟩ := processSamp_spec h
  rcases hcase with ⟨hout, -, -⟩ | ⟨hout, -, -⟩ | ⟨-, -, -, hpt⟩
  · rw [hout]
    rfl
  · rw [hout]
    rfl
  · rcases phaseTrack_spec hpt with ⟨hout, -⟩ | ⟨hout, -⟩ | ⟨hout, -⟩ |
      ⟨hout, -⟩ | ⟨hout, -⟩ <;> rw [hout] <;> rfl

theorem processSamplesFrom_bad_true (n : Nat) (aE aT : List Char) :
    ∀ (fuel samp s : Nat) (st : GState), samp ≤ s → s < n →
    s - samp < fuel →
    ¬(validTrueAllele (aT.getD (s * 2) garbageChar) = true ∧
      validTrueAllele (aT.getD (s * 2 + 1) garbageChar) = true) →
    processSamplesFrom (defaultCfg n) aE aT fuel samp st = .error .fatal := by
  intro fuel
  induction fuel with
  | zero => intro samp s st h1 h2 h3 hbad; omega
  | succ m ih =>
    intro samp s st h1 h2 h3 hbad
    rw [processSamplesFrom,
      if_pos (show samp < (defaultCfg n).numSamples by
        show samp < n; omega)]
    by_cases hss : samp = s
    · subst hss
      rw [processSamp_bad_true rfl hbad]
    · cases hps : processSamp (defaultCfg n) aE aT samp st with
      | error e =>
        rw [processSamp_error_fatal hps]
      | ok r =>
        obtain ⟨st1, out⟩ := r
        have hadv := defaultCfg_advance hps
        dsimp only
        rw [hadv]
        exact ih (samp + 1) s st1 (by omega) h2 (by omega) hbad

/-! ### Locus-level reader characterizations for the default configuration -/

theorem readLocusLines_est_short (n : Nat) (lineE restE trueS : List Char)
    (hE : '\n' ∉ lineE) (hlt : lineE.length < 2 * n) :
    readLocusLines (defaultCfg n) (lineE ++ '\n' :: restE) trueS =
      .error .fatal := by
  have hE' := readTrueLoop_app (2 * n) lineE restE [] 0 hE (Nat.zero_le _)
  simp only [Nat.zero_add, Nat.sub_zero, List.nil_append] at hE'
  rw [if_pos (by omega)] at hE'
  unfold readLocusLines defaultCfg
  simp only [Nat.mul_zero, skipEst, readEstLoop_no_omit, hE']
  rw [if_pos (by omega)]

theorem readLocusLines_est (n : Nat) (lineE restE trueS : List Char)
    (hE : '\n' ∉ lineE) (hge : 2 * n ≤ lineE.length) :
    readLocusLines (defaultCfg n) (lineE ++ '\n' :: restE) trueS =
      match readTrueLoop (2 * n) 0 [] trueS with
      | (allTrue, j, true2) =>
        if j ≠ 2 * n then .error .fatal
        else .ok (lineE.take (2 * n), allTrue,
          (if lineE.length ≤ 2 * n then '\n' :: restE
           else lineE.drop (2 * n + 1) ++ '\n' :: restE), true2) := by
  have hE' := readTrueLoop_app (2 * n) lineE restE [] 0 hE (Nat.zero_le _)
  simp only [Nat.zero_add, Nat.sub_zero, List.nil_append] at hE'
  rcases hrt : readTrueLoop (2 * n) 0 [] trueS with ⟨aT, j, t2⟩
  by_cases h1e : lineE.length = 2 * n
  · rw [if_pos (by omega)] at hE'
    unfold readLocusLines defaultCfg
    simp only [Nat.mul_zero, skipEst, readEstLoop_no_omit, hE', hrt]
    rw [if_neg (show ¬(lineE.length ≠ 2 * n) from by omega),
      List.take_of_length_le (le_of_eq h1e), if_pos (le_of_eq h1e)]
  · rw [if_neg (by omega)] at hE'
    unfold readLocusLines defaultCfg
    simp only [Nat.mul_zero, skipEst, readEstLoop_no_omit, hE', hrt]
    rw [if_neg (show ¬(2 * n ≠ 2 * n) from by omega),
      if_neg (show ¬lineE.length ≤ 2 * n from by omega)]

theorem processLocus_lines (n : Nat) (st : GState)
    (lineE lineT restE restT : List Char)
    (hE : '\n' ∉ lineE) (hT : '\n' ∉ lineT)
    (hlE : lineE.length = 2 * n) (hlT : lineT.length = 2 * n) :
    processLocus (defaultCfg n) st (lineE ++ '\n' :: restE)
        (lineT ++ '\n' :: restT) =
      match processSamples (defaultCfg n) lineE lineT
          { st with numMarkers := st.numMarkers + 1 } with
      | .error e => .error e
      | .ok st2 => .ok (st2, restE, restT) := by
  unfold processLocus
  rw [readLocusLines_default n lineE lineT restE restT hE hT,
    if_neg (by omega), if_neg (by omega), if_pos (by omega),
    if_pos (by omega), List.take_of_length_le (le_of_eq hlE),
    List.take_of_length_le (le_of_eq hlT)]
  cases hps : processSamples (defaultCfg n) lineE lineT
      { st with numMarkers := st.numMarkers + 1 } with
  | error e =>
    dsimp only
    rw [hps]
  | ok st2 =>
    dsimp only
    rw [hps]
    dsimp only
    rw [show readToEndline ('\n' :: restE) = some restE from rfl,
      show readToEndline ('\n' :: restT) = some restT from rfl]

/-! ### C6 (corrected): reader error handling -/

/-- Counterexample to C6 as stated: a one-sample estimated line with one
character too many ("010" instead of two characters) is not fatal; the run
completes normally, silently consuming the extra character. -/
theorem reader_overlong_not_fatal :
    ("010".toList).length ≠ 2 * 1 ∧
    run (defaultCfg 1) [] "010\n".toList "01\n".toList = .ok stC6 := by
  exact ⟨by decide, by decide⟩

/-- C6 (amended): a line with too few allele characters is fatal for either
stream, and a true-set allele outside {'0','1','9'} at a processed sample
position is fatal; but a line with more than the expected number of
characters is NOT fatal in either stream — whether the overlong line is in
the estimated stream (part 4) or in the true stream (part 5), the extra
characters are consumed by the read-to-endline loop and the run result is
unchanged. -/
theorem reader_fatal_behaviour :
    (∀ (n : Nat) (lineE restE trueS : List Char) (anc : List (List Int)),
      '\n' ∉ lineE → lineE.length < 2 * n →
      run (defaultCfg n) anc (lineE ++ '\n' :: restE) trueS =
        .error .fatal) ∧
    (∀ (n : Nat) (lineE lineT restE restT : List Char)
        (anc : List (List Int)),
      '\n' ∉ lineE → '\n' ∉ lineT → 2 * n ≤ lineE.length →
      lineT.length < 2 * n →
      run (defaultCfg n) anc (lineE ++ '\n' :: restE)
        (lineT ++ '\n' :: restT) = .error .fatal) ∧
    (∀ (n : Nat) (lineE lineT restE restT : List Char)
        (anc : List (List Int)) (s : Nat),
      '\n' ∉ lineE → '\n' ∉ lineT → lineE.length = 2 * n →
      lineT.length = 2 * n → s < n →
      ¬(validTrueAllele (lineT.getD (s * 2) garbageChar) = true ∧
        validTrueAllele (lineT.getD (s * 2 + 1) garbageChar) = true) →
      run (defaultCfg n) anc (lineE ++ '\n' :: restE)
        (lineT ++ '\n' :: restT) = .error .fatal) ∧
    (∀ (n : Nat) (lineE extras restE trueS : List Char)
        (anc : List (List Int)),
      '\n' ∉ lineE → '\n' ∉ extras → lineE.length = 2 * n →
      run (defaultCfg n) anc ((lineE ++ extras) ++ '\n' :: restE) trueS =
        run (defaultCfg n) anc (lineE ++ '\n' :: restE) trueS) ∧
    (∀ (n : Nat) (lineE lineT extras restE restT : List Char)
        (anc : List (List Int)),
      '\n' ∉ lineE → '\n' ∉ lineT → '\n' ∉ extras →
      lineE.length = 2 * n → lineT.length = 2 * n →
      run (defaultCfg n) anc (lineE ++ '\n' :: restE)
          ((lineT ++ extras) ++ '\n' :: restT) =
        run (defaultCfg n) anc (lineE ++ '\n' :: restE)
          (lineT ++ '\n' :: restT)) := by
  have hconsE : ∀ (l r : List Char), l ++ '\n' :: r ≠ [] := by
    intro l r h
    cases l <;> simp_all
  refine ⟨?_, ?_, ?_, ?_, ?_⟩
  · intro n lineE restE trueS anc hE hlt
    unfold run
    rw [runLoop_cons (hconsE _ _)]
    unfold processLocus
    rw [readLocusLines_est_short n lineE restE trueS hE hlt]
  · intro n lineE lineT restE restT anc hE hT hge hlt
    unfold run
    rw [runLoop_cons (hconsE _ _)]
    unfold processLocus
    rw [readLocusLines_default n lineE lineT restE restT hE hT,
      if_neg (by omega), if_pos (by omega)]
  · intro n lineE lineT restE restT anc s hE hT hlE hlT hs hbad
    unfold run
    rw [runLoop_cons (hconsE _ _),
      processLocus_lines n _ lineE lineT restE restT hE hT hlE hlT]
    rw [show processSamples (defaultCfg n) lineE lineT
        { initState (defaultCfg n) anc with
          numMarkers := (initState (defaultCfg n) anc).numMarkers + 1 } =
        .error .fatal from
      processSamplesFrom_bad_true n lineE lineT (defaultCfg n).numSamples
        0 s _ (Nat.zero_le s) hs (by show s - 0 < n; omega) hbad]
  · intro n lineE extras restE trueS anc hE hX hlE
    cases extras with
    | nil => simp
    | cons x xs =>
      have hEX : '\n' ∉ lineE ++ x :: xs := by
        intro hm
        rcases List.mem_append.1 hm with hm | hm
        · exact hE hm
        · exact hX hm
      have hxs : '\n' ∉ xs := fun hm => hX (List.mem_cons_of_mem x hm)
      unfold run
      rw [runLoop_cons (hconsE (lineE ++ x :: xs) restE),
        runLoop_cons (hconsE lineE restE)]
      unfold processLocus
      rw [readLocusLines_est n (lineE ++ x :: xs) restE trueS hEX
          (by simp only [List.length_append, hlE]; omega),
        readLocusLines_est n lineE restE trueS hE (le_of_eq hlE.symm)]
      rcases hrt : readTrueLoop (2 * n) 0 [] trueS with ⟨aT, j, t2⟩
      dsimp only
      by_cases hj : j ≠ 2 * n
      · rw [if_pos hj, if_pos hj]
      · rw [if_neg hj, if_neg hj]
        rw [if_neg (by simp; omega), if_pos (le_of_eq hlE)]
        have htake : (lineE ++ x :: xs).take (2 * n) = lineE := by
          rw [← hlE]
          exact List.take_left lineE (x :: xs)
        have hdrop : (lineE ++ x :: xs).drop (2 * n + 1) = xs := by
          rw [← hlE, List.drop_append 1, List.drop_one, List.tail_cons]
        rw [htake, List.take_of_length_le (le_of_eq hlE), hdrop]
        dsimp only
        cases hps : processSamples (defaultCfg n) lineE aT
            { initState (defaultCfg n) anc with
              numMarkers := (initState (defaultCfg n) anc).numMarkers + 1 }
            with
        | error e => rfl
        | ok st2 =>
          rw [readToEndline_app xs restE hxs,
            show readToEndline ('\n' :: restE) = some restE from rfl]
          cases hrt2 : readToEndline t2 with
          | none => rfl
          | some t3 =>
            dsimp only
            apply runLoop_fuel_irrel
            · simp only [List.length_append, List.length_cons]
              omega
            · simp only [List.length_append, List.length_cons]
              omega
  · intro n lineE lineT extras restE restT anc hE hT hX hlE hlT
    cases extras with
    | nil => simp
    | cons x xs =>
      have hTX : '\n' ∉ lineT ++ x :: xs := by
        intro hm
        rcases List.mem_append.1 hm with hm | hm
        · exact hT hm
        · exact hX hm
      have hxs : '\n' ∉ xs := fun hm => hX (List.mem_cons_of_mem x hm)
      unfold run
      rw [runLoop_cons (hconsE lineE restE),
        runLoop_cons (hconsE lineE restE)]
      unfold processLocus
      rw [readLocusLines_default n lineE (lineT ++ x :: xs) restE restT hE
          hTX,
        readLocusLines_default n lineE lineT restE restT hE hT]
      rw [if_neg (show ¬lineE.length < 2 * n by omega),
        if_neg (show ¬lineE.length < 2 * n by omega),
        if_neg (show ¬(lineT ++ x :: xs).length < 2 * n by
          simp only [List.length_append, List.length_cons]; omega),
        if_neg (show ¬lineT.length < 2 * n by omega)]
      have htakeT : (lineT ++ x :: xs).take (2 * n) = lineT := by
        rw [← hlT]
        exact List.take_left lineT (x :: xs)
      have hdropT : (lineT ++ x :: xs).drop (2 * n + 1) = xs := by
        rw [← hlT, List.drop_append 1, List.drop_one, List.tail_cons]
      rw [htakeT, List.take_of_length_le (le_of_eq hlT),
        List.take_of_length_le (le_of_eq hlE),
        if_pos (le_of_eq hlE),
        if_neg (show ¬(lineT ++ x :: xs).length ≤ 2 * n by
          simp only [List.length_append, List.length_cons]; omega),
        if_pos (le_of_eq hlT), hdropT]
      dsimp only
      cases hps : processSamples (defaultCfg n) lineE lineT
          { initState (defaultCfg n) anc with
            numMarkers := (initState (defaultCfg n) anc).numMarkers + 1 }
          with
      | error e => rfl
      | ok st2 =>
        rw [readToEndline_app xs restT hxs,
          show readToEndline ('\n' :: restE) = some restE from rfl,
          show readToEndline ('\n' :: restT) = some restT from rfl]

/-- Concrete instance of `reader_fatal_behaviour`: a one-sample estimated
line with a single character is fatal. -/
theorem reader_fatal_behaviour_witness :
    run (defaultCfg 1) [] ("0".toList ++ '\n' :: []) "01\n".toList =
      .error .fatal :=
  reader_fatal_behaviour.1 1 "0".toList [] "01\n".toList [] (by decide)
    (by decide)


/-! ### C5: termination on well-formed input -/

theorem getD_mem {α} : ∀ (l : List α) (i : Nat) (d : α), i < l.length →
    l.getD i d ∈ l
  | [], _, _, h => absurd h (by simp)
  | a :: l, 0, _, _ => List.mem_cons_self a l
  | a :: l, i + 1, d, h =>
      List.mem_cons_of_mem a (getD_mem l i d (by simpa using h))

theorem orient_cases {st : GState} {samp : Nat} (hor : orientOK st)
    (h : st.homologsInverted.getD samp (-1) ≠ -1) :
    st.homologsInverted.getD samp (-1) = 0 ∨
      st.homologsInverted.getD samp (-1) = 1 := by
  have hlt := getD_ne_default h
  rcases hor _ (getD_mem st.homologsInverted samp (-1) hlt) with h' | h' | h'
  · exact absurd h' h
  · exact Or.inl h'
  · exact Or.inr h'

theorem switchBump_markers (a : Int) (samp : Nat) (st : GState) :
    (switchBump a samp st).numMarkers = st.numMarkers := rfl

theorem orientOK_hetBump {a : Int} {t0 t1 : Char} {st : GState}
    (hor : orientOK st) : orientOK (hetBump a t0 t1 st) := by
  intro o hm
  rw [hetBump_homologs] at hm
  exact hor o hm

theorem orientOK_setOrient {st : GState} (hor : orientOK st) {samp : Nat}
    {v : Int} (hv : v = -1 ∨ v = 0 ∨ v = 1) :
    ∀ o ∈ st.homologsInverted.set samp v, o = -1 ∨ o = 0 ∨ o = 1 := by
  intro o hm
  rcases mem_of_mem_set _ _ _ _ hm with h | h
  · exact hor o h
  · exact h ▸ hv

theorem phaseTrack_consistent_ok {e0 e1 t0 t1 : Char} {a : Int} {samp : Nat}
    {st : GState} (hv0 : t0 = '0' ∨ t0 = '1') (hv1 : t1 = '0' ∨ t1 = '1')
    (hcp : (e0 = '?' ∧ e1 = '?') ∨ (e0 = t0 ∧ e1 = t1) ∨ (e0 = t1 ∧ e1 = t0))
    (hor : orientOK st) :
    ∃ st' out, phaseTrack e0 e1 t0 t1 a samp st = .ok (st', out) ∧
      st'.numMarkers = st.numMarkers ∧ orientOK st' := by
  have hq0 : t0 ≠ '?' := by rcases hv0 with h | h <;> rw [h] <;> decide
  have hq1 : t1 ≠ '?' := by rcases hv1 with h | h <;> rw [h] <;> decide
  have hA0 : estAt 0 e0 e1 = e0 := by unfold estAt; rw [if_pos rfl]
  have hA1 : estAt 1 e0 e1 = e1 := by unfold estAt; rw [if_neg (by decide)]
  have hB0 : estAt ((1 : Int) - 0) e0 e1 = e1 := by
    rw [show (1 : Int) - 0 = 1 by decide]; exact hA1
  have hB1 : estAt ((1 : Int) - 1) e0 e1 = e0 := by
    rw [show (1 : Int) - 1 = 0 by decide]; exact hA0
  unfold phaseTrack
  rcases hcp with ⟨he0, he1⟩ | ⟨he0, he1⟩ | ⟨he0, he1⟩
  · rw [if_pos (Or.inl he0), if_pos (he0.trans he1.symm)]
    exact ⟨_, _, rfl, rfl, hor⟩
  · -- identical labelling: e0 = t0, e1 = t1
    rw [if_neg (by
      rintro (h | h)
      · exact hq0 (he0.symm.trans h)
      · exact hq1 (he1.symm.trans h))]
    by_cases ho : st.homologsInverted.getD samp (-1) = -1
    · rw [if_pos ho]
      by_cases htt : t0 = t1
      · rw [if_pos htt, if_pos ⟨he0.trans (htt.trans he1.symm), he0⟩]
        exact ⟨_, _, rfl, rfl, hor⟩
      · rw [if_neg htt, if_pos he0, if_pos he1]
        exact ⟨_, _, rfl, rfl, fun o hm =>
          orientOK_setOrient hor (Or.inr (Or.inl rfl)) o hm⟩
    · rw [if_neg ho]
      rcases orient_cases hor ho with h0 | h0
      · rw [h0, hA0, hB0, if_pos he0, if_pos he1]
        exact ⟨_, _, rfl, hetBump_markers a t0 t1 st, orientOK_hetBump hor⟩
      · rw [h0, hA1, hB1]
        by_cases htt : t0 = t1
        · rw [if_pos (he1.trans htt.symm), if_pos (he0.trans htt)]
          exact ⟨_, _, rfl, hetBump_markers a t0 t1 st, orientOK_hetBump hor⟩
        · rw [if_neg (fun h => htt ((he1.symm.trans h).symm)),
            if_pos ⟨he1, he0⟩]
          refine ⟨_, _, rfl, (switchBump_markers _ _ _).trans
            (hetBump_markers a t0 t1 st), ?_⟩
          intro o hm
          rw [switchBump_homologs, hetBump_homologs, h0] at hm
          exact orientOK_setOrient hor (by decide) o hm
  · -- swapped labelling: e0 = t1, e1 = t0
    rw [if_neg (by
      rintro (h | h)
      · exact hq1 (he0.symm.trans h)
      · exact hq0 (he1.symm.trans h))]
    by_cases ho : st.homologsInverted.getD samp (-1) = -1
    · rw [if_pos ho]
      by_cases htt : t0 = t1
      · rw [if_pos htt, if_pos ⟨he0.trans (htt.symm.trans he1.symm),
          he0.trans htt.symm⟩]
        exact ⟨_, _, rfl, rfl, hor⟩
      · rw [if_neg htt, if_neg (fun h => htt (he0.symm.trans h).symm),
          if_pos ⟨he0, he1⟩]
        exact ⟨_, _, rfl, rfl, fun o hm =>
          orientOK_setOrient hor (Or.inr (Or.inr rfl)) o hm⟩
    · rw [if_neg ho]
      rcases orient_cases hor ho with h0 | h0
      · rw [h0, hA0, hB0]
        by_cases htt : t0 = t1
        · rw [if_pos (he0.trans htt.symm), if_pos (he1.trans htt)]
          exact ⟨_, _, rfl, hetBump_markers a t0 t1 st, orientOK_hetBump hor⟩
        · rw [if_neg (fun h => htt ((he0.symm.trans h).symm)),
            if_pos ⟨he0, he1⟩]
          refine ⟨_, _, rfl, (switchBump_markers _ _ _).trans
            (hetBump_markers a t0 t1 st), ?_⟩
          intro o hm
          rw [switchBump_homologs, hetBump_homologs, h0] at hm
          exact orientOK_setOrient hor (by decide) o hm
      · rw [h0, hA1, hB1, if_pos he1, if_pos he0]
        exact ⟨_, _, rfl, hetBump_markers a t0 t1 st, orientOK_hetBump hor⟩

theorem processSamp_consistent_ok {n : Nat} {aE aT : List Char} {samp : Nat}
    {st : GState}
    (hcp : consistentPair (aE.getD (samp * 2) garbageChar)
      (aE.getD (samp * 2 + 1) garbageChar)
      (aT.getD (samp * 2) garbageChar) (aT.getD (samp * 2 + 1) garbageChar))
    (hor : orientOK st) :
    ∃ st' out, processSamp (defaultCfg n) aE aT samp st = .ok (st', out) ∧
      st'.numMarkers = st.numMarkers ∧ orientOK st' := by
  obtain ⟨⟨hv0, hv1⟩, hrest⟩ := hcp
  unfold processSamp
  rw [show ancStep (defaultCfg n) samp st = .ok (-1, st) by
    simp [ancStep, defaultCfg]]
  dsimp only
  rw [if_pos (by rw [Bool.and_eq_true]; exact ⟨hv0, hv1⟩)]
  by_cases h9 : aT.getD (samp * 2) garbageChar = '9' ∨
      aT.getD (samp * 2 + 1) garbageChar = '9'
  · rw [if_pos h9]
    exact ⟨_, _, rfl, rfl, hor⟩
  · rw [if_neg h9]
    push_neg at h9
    have hv0' : aT.getD (samp * 2) garbageChar = '0' ∨
        aT.getD (samp * 2) garbageChar = '1' := by
      have h := hv0
      simp only [validTrueAllele, Bool.or_eq_true, beq_iff_eq] at h
      rcases h with (h | h) | h
      · exact Or.inl h
      · exact Or.inr h
      · exact absurd h h9.1
    have hv1' : aT.getD (samp * 2 + 1) garbageChar = '0' ∨
        aT.getD (samp * 2 + 1) garbageChar = '1' := by
      have h := hv1
      simp only [validTrueAllele, Bool.or_eq_true, beq_iff_eq] at h
      rcases h with (h | h) | h
      · exact Or.inl h
      · exact Or.inr h
      · exact absurd h h9.2
    have hcp' := hrest h9.1 h9.2
    rw [if_neg (show ¬(aE.getD (samp * 2) garbageChar = '9' ∨
        aE.getD (samp * 2 + 1) garbageChar = '9') by
      rintro (h | h)
      · rcases hcp' with ⟨he0, -⟩ | ⟨he0, -⟩ | ⟨he0, -⟩
        · rw [he0] at h; exact absurd h (by decide)
        · rw [he0] at h
          rcases hv0' with h0 | h0 <;> rw [h0] at h <;>
            exact absurd h (by decide)
        · rw [he0] at h
          rcases hv1' with h0 | h0 <;> rw [h0] at h <;>
            exact absurd h (by decide)
      · rcases hcp' with ⟨-, he1⟩ | ⟨-, he1⟩ | ⟨-, he1⟩
        · rw [he1] at h; exact absurd h (by decide)
        · rw [he1] at h
          rcases hv1' with h0 | h0 <;> rw [h0] at h <;>
            exact absurd h (by decide)
        · rw [he1] at h
          rcases hv0' with h0 | h0 <;> rw [h0] at h <;>
            exact absurd h (by decide))]
    rw [if_neg (show ¬(trioApplicable (defaultCfg n) samp &&
        tripleHetAmbig aT samp (trioOtherParent (defaultCfg n) samp)) = true
      by simp [trioApplicable, defaultCfg])]
    exact phaseTrack_consistent_ok hv0' hv1' hcp' hor

theorem processSamplesFrom_consistent_ok (n : Nat) (aE aT : List Char)
    (hcp : ∀ s, s < n → consistentPair (aE.getD (s * 2) garbageChar)
      (aE.getD (s * 2 + 1) garbageChar) (aT.getD (s * 2) garbageChar)
      (aT.getD (s * 2 + 1) garbageChar)) :
    ∀ (fuel samp : Nat) (st : GState), n ≤ samp + fuel → orientOK st →
    ∃ st', processSamplesFrom (defaultCfg n) aE aT fuel samp st = .ok st' ∧
      st'.numMarkers = st.numMarkers ∧ orientOK st' := by
  intro fuel
  induction fuel with
  | zero =>
    intro samp st hle hor
    rw [processSamplesFrom,
      if_neg (show ¬samp < (defaultCfg n).numSamples by show ¬samp < n; omega)]
    exact ⟨st, rfl, rfl, hor⟩
  | succ m ih =>
    intro samp st hle hor
    by_cases hs : samp < n
    · rw [processSamplesFrom,
        if_pos (show samp < (defaultCfg n).numSamples from hs)]
      obtain ⟨st1, out, hps, hm1, hor1⟩ :=
        processSamp_consistent_ok (hcp samp hs) hor
      rw [hps]
      dsimp only
      have hadv := defaultCfg_advance hps
      rw [hadv]
      obtain ⟨st2, hps2, hm2, hor2⟩ := ih (samp + 1) st1 (by omega) hor1
      exact ⟨st2, hps2, hm2.trans hm1, hor2⟩
    · rw [processSamplesFrom,
        if_neg (show ¬samp < (defaultCfg n).numSamples from hs)]
      exact ⟨st, rfl, rfl, hor⟩

theorem processLocus_wellformed (n : Nat) (st : GState)
    (lineE lineT restE restT : List Char)
    (hE : lineOK n lineE) (hT : lineOK n lineT)
    (hcp : ∀ s, s < n → consistentPair (lineE.getD (s * 2) garbageChar)
      (lineE.getD (s * 2 + 1) garbageChar) (lineT.getD (s * 2) garbageChar)
      (lineT.getD (s * 2 + 1) garbageChar))
    (hor : orientOK st) :
    ∃ st', processLocus (defaultCfg n) st (lineE ++ '\n' :: restE)
        (lineT ++ '\n' :: restT) = .ok (st', restE, restT) ∧
      st'.numMarkers = st.numMarkers + 1 ∧ orientOK st' := by
  rw [processLocus_lines n st lineE lineT restE restT hE.2 hT.2 hE.1 hT.1]
  obtain ⟨st', hps, hm, hor'⟩ := processSamplesFrom_consistent_ok n lineE
    lineT hcp n 0 { st with numMarkers := st.numMarkers + 1 } (by omega) hor
  rw [show processSamples (defaultCfg n) lineE lineT
      { st with numMarkers := st.numMarkers + 1 } =
    processSamplesFrom (defaultCfg n) lineE lineT n 0
      { st with numMarkers := st.numMarkers + 1 } from rfl, hps]
  exact ⟨st', rfl, hm, hor'⟩

theorem runLoop_wellformed (n : Nat) :
    ∀ (estLines trueLines : List (List Char)) (fuel : Nat) (st : GState),
    wellFormedInput n estLines trueLines → orientOK st →
    (linesToStream estLines).length < fuel →
    ∃ st', runLoop (defaultCfg n) fuel st (linesToStream estLines)
        (linesToStream trueLines) = .ok st' ∧
      st'.numMarkers = st.numMarkers + estLines.length ∧ orientOK st' := by
  intro estLines
  induction estLines with
  | nil =>
    intro trueLines fuel st hwf hor hfuel
    cases fuel with
    | zero => exact absurd hfuel (by simp)
    | succ m => exact ⟨st, rfl, by simp, hor⟩
  | cons lE restE ih =>
    intro trueLines fuel st hwf hor hfuel
    cases trueLines with
    | nil => exact absurd hwf.1 (by simp)
    | cons lT restT =>
      cases fuel with
      | zero => exact absurd hfuel (by omega)
      | succ m =>
        rw [show linesToStream (lE :: restE) =
              lE ++ '\n' :: linesToStream restE from rfl] at hfuel
        rw [show linesToStream (lE :: restE) =
              lE ++ '\n' :: linesToStream restE from rfl,
            show linesToStream (lT :: restT) =
              lT ++ '\n' :: linesToStream restT from rfl]
        rw [runLoop_cons (by cases lE <;> simp)]
        obtain ⟨hlen, hEok, hTok, hc⟩ := hwf
        have hcp0 : ∀ s, s < n →
            consistentPair (lE.getD (s * 2) garbageChar)
              (lE.getD (s * 2 + 1) garbageChar)
              (lT.getD (s * 2) garbageChar)
              (lT.getD (s * 2 + 1) garbageChar) := by
          intro s hs
          have h := hc 0 s (by simp) hs
          simpa only [List.getD_cons_zero] using h
        obtain ⟨st1, hpl, hm1, hor1⟩ := processLocus_wellformed n st lE lT
          (linesToStream restE) (linesToStream restT)
          (hEok lE (List.mem_cons_self lE restE))
          (hTok lT (List.mem_cons_self lT restT)) hcp0 hor
        rw [hpl]
        dsimp only
        have hwf' : wellFormedInput n restE restT := by
          refine ⟨by simpa using hlen,
            fun l hl => hEok l (List.mem_cons_of_mem lE hl),
            fun l hl => hTok l (List.mem_cons_of_mem lT hl), ?_⟩
          intro i s hi hs
          have h := hc (i + 1) s (by simp only [List.length_cons]; omega) hs
          simpa only [List.getD_cons_succ] using h
        obtain ⟨st2, hrl, hm2, hor2⟩ := ih restT m st1 hwf' hor1 (by
          simp only [List.length_append, List.length_cons] at hfuel
          omega)
        refine ⟨st2, hrl, ?_, hor2⟩
        rw [hm2, hm1]
        simp only [List.length_cons]
        omega

/-- C5: on well-formed input (both streams have the same number of loci,
every line is complete, every sample's alleles are consistent at every
locus), the outer per-locus loop terminates exactly at the end of the
estimated stream: the run ends normally, having consumed every locus. -/
theorem run_terminates_on_wellformed (n : Nat)
    (estLines trueLines : List (List Char)) (anc : List (List Int))
    (h : wellFormedInput n estLines trueLines) :
    ∃ st, run (defaultCfg n) anc (linesToStream estLines)
        (linesToStream trueLines) = .ok st ∧
      st.numMarkers = estLines.length := by
  obtain ⟨st, hr, hm, -⟩ := runLoop_wellformed n estLines trueLines
    ((linesToStream estLines).length + 1) (initState (defaultCfg n) anc) h
    (fun o hm => Or.inl (List.eq_of_mem_replicate hm)) (by omega)
  exact ⟨st, hr, by
    rw [hm, show (initState (defaultCfg n) anc).numMarkers = 0 from rfl,
      Nat.zero_add]⟩

/-- Concrete instance of `run_terminates_on_wellformed`: a single locus for
one sample, estimated "01" and true "01". -/
theorem run_terminates_on_wellformed_witness :
    ∃ st, run (defaultCfg 1) [] (linesToStream [['0', '1']])
        (linesToStream [['0', '1']]) = .ok st ∧ st.numMarkers = 1 := by
  have hwf : wellFormedInput 1 [['0', '1']] [['0', '1']] := by
    refine ⟨rfl, ?_, ?_, ?_⟩
    · intro l hl
      rcases List.mem_singleton.1 hl with rfl
      exact ⟨rfl, by decide⟩
    · intro l hl
      rcases List.mem_singleton.1 hl with rfl
      exact ⟨rfl, by decide⟩
    · intro i s hi hs
      have hi0 : i = 0 := by simpa using hi
      have hs0 : s = 0 := by omega
      subst hi0
      subst hs0
      exact ⟨by decide, fun h1 h2 => Or.inr (Or.inl ⟨rfl, rfl⟩)⟩
  exact run_terminates_on_wellformed 1 [['0', '1']] [['0', '1']] [] hwf


/-! ### C8: invariance under global inversion of one sample's estimate -/

theorem set_beyond {α} : ∀ (l : List α) (i : Nat) (v : α),
    l.length ≤ i → l.set i v = l
  | [], _, _, _ => rfl
  | a :: l, 0, v, h => absurd h (by simp)
  | a :: l, i + 1, v, h => by
    show a :: l.set i v = a :: l
    rw [set_beyond l i v (by simpa using h)]

theorem getD_replicate_self {α} (d : α) : ∀ (k i : Nat),
    (List.replicate k d).getD i d = d
  | 0, _ => by simp
  | k + 1, 0 => rfl
  | k + 1, i + 1 => getD_replicate_self d k i

theorem flipOrientAt_getD_ne {s samp : Nat} (hne : samp ≠ s)
    (l : List Int) : (flipOrientAt s l).getD samp (-1) = l.getD samp (-1) := by
  unfold flipOrientAt
  split
  · rfl
  · exact getD_set_ne _ _ _ _ _ (fun hh => hne hh.symm)

theorem flipOrientAt_set_ne {s samp : Nat} (hne : samp ≠ s) (l : List Int)
    (v : Int) : flipOrientAt s (l.set samp v) = (flipOrientAt s l).set samp v := by
  unfold flipOrientAt
  rw [getD_set_ne _ _ _ _ _ hne]
  by_cases hc : l.getD s (-1) = -1
  · rw [if_pos hc, if_pos hc]
  · rw [if_neg hc, if_neg hc, List.set_comm _ _ _ hne]

theorem flipOrientAt_of_unset {s : Nat} {l : List Int}
    (h : l.getD s (-1) = -1) : flipOrientAt s l = l := by
  unfold flipOrientAt
  rw [if_pos h]

theorem flipOrientAt_getD_self {s : Nat} {l : List Int}
    (h : l.getD s (-1) ≠ -1) :
    (flipOrientAt s l).getD s (-1) = 1 - l.getD s (-1) := by
  unfold flipOrientAt
  rw [if_neg h, getD_set_self _ _ _ _ (getD_ne_default h)]

theorem flipOrientAt_set_zero {s : Nat} {l : List Int}
    (h : l.getD s (-1) = -1) : flipOrientAt s (l.set s 0) = l.set s 1 := by
  by_cases hlen : s < l.length
  · unfold flipOrientAt
    rw [getD_set_self _ _ _ _ hlen, if_neg (by decide), List.set_set,
      show (1 : Int) - 0 = 1 by decide]
  · rw [set_beyond l s 0 (by omega), set_beyond l s 1 (by omega),
      flipOrientAt_of_unset h]

theorem flipOrientAt_set_one {s : Nat} {l : List Int}
    (h : l.getD s (-1) = -1) : flipOrientAt s (l.set s 1) = l.set s 0 := by
  by_cases hlen : s < l.length
  · unfold flipOrientAt
    rw [getD_set_self _ _ _ _ hlen, if_neg (by decide), List.set_set,
      show (1 : Int) - 1 = 0 by decide]
  · rw [set_beyond l s 1 (by omega), set_beyond l s 0 (by omega),
      flipOrientAt_of_unset h]

theorem flipOrientAt_toggle {s : Nat} {l : List Int}
    (h2 : l.getD s (-1) = 0 ∨ l.getD s (-1) = 1) :
    flipOrientAt s (l.set s (1 - l.getD s (-1))) =
      (flipOrientAt s l).set s (1 - (flipOrientAt s l).getD s (-1)) := by
  have hne : l.getD s (-1) ≠ -1 := by
    rcases h2 with h | h <;> rw [h] <;> decide
  have hlen : s < l.length := getD_ne_default hne
  rw [flipOrientAt_getD_self hne]
  unfold flipOrientAt
  rw [if_neg hne, getD_set_self _ _ _ _ hlen,
    if_neg (show ¬(1 - l.getD s (-1) = -1) by
      rcases h2 with h | h <;> rw [h] <;> decide),
    List.set_set]

theorem flipState_hetBump (s : Nat) (a : Int) (t0 t1 : Char) (st : GState) :
    flipState s (hetBump a t0 t1 st) = hetBump a t0 t1 (flipState s st) := by
  unfold flipState hetBump
  by_cases htt : t0 ≠ t1
  · rw [if_pos htt, if_pos htt]
  · rw [if_neg htt, if_neg htt]

theorem flipState_switchBump_ne {s samp : Nat} (hne : samp ≠ s) (a : Int)
    (st : GState) :
    flipState s (switchBump a samp st) = switchBump a samp (flipState s st) := by
  unfold flipState switchBump
  dsimp only
  rw [flipOrientAt_set_ne hne, flipOrientAt_getD_ne hne]

theorem flipState_switchBump_self (a : Int) {s : Nat} (st : GState)
    (h2 : st.homologsInverted.getD s (-1) = 0 ∨
          st.homologsInverted.getD s (-1) = 1) :
    flipState s (switchBump a s st) = switchBump a s (flipState s st) := by
  unfold flipState switchBump
  dsimp only
  rw [flipOrientAt_toggle h2]

theorem swapPairAt_length (s : Nat) (l : List Char) :
    (swapPairAt s l).length = l.length := by
  unfold swapPairAt
  split
  · simp
  · rfl

theorem swapPairAt_not_mem {c : Char} {s : Nat} {l : List Char}
    (h : c ∉ l) : c ∉ swapPairAt s l := by
  unfold swapPairAt
  split
  · rename_i hlt
    intro hm
    rcases mem_of_mem_set _ _ _ _ hm with hm | hm
    · rcases mem_of_mem_set _ _ _ _ hm with hm | hm
      · exact h hm
      · exact h (by rw [hm]; exact getD_mem l (2 * s + 1) garbageChar hlt)
    · exact h (by rw [hm]; exact getD_mem l (2 * s) garbageChar (by omega))
  · exact h

theorem swapPairAt_getD_other (s : Nat) (l : List Char) (i : Nat)
    (h1 : i ≠ 2 * s) (h2 : i ≠ 2 * s + 1) :
    (swapPairAt s l).getD i garbageChar = l.getD i garbageChar := by
  unfold swapPairAt
  split
  · rw [getD_set_ne _ _ _ _ _ (fun hh => h2 hh.symm),
      getD_set_ne _ _ _ _ _ (fun hh => h1 hh.symm)]
  · rfl

theorem swapPairAt_getD_fst (s : Nat) (l : List Char)
    (h : 2 * s + 1 < l.length) :
    (swapPairAt s l).getD (s * 2) garbageChar =
      l.getD (s * 2 + 1) garbageChar := by
  unfold swapPairAt
  rw [if_pos h, getD_set_ne _ _ _ _ _ (by omega),
    show s * 2 = 2 * s from Nat.mul_comm s 2, getD_set_self _ _ _ _ (by omega)]

theorem swapPairAt_getD_snd (s : Nat) (l : List Char)
    (h : 2 * s + 1 < l.length) :
    (swapPairAt s l).getD (s * 2 + 1) garbageChar =
      l.getD (s * 2) garbageChar := by
  unfold swapPairAt
  rw [if_pos h, show s * 2 = 2 * s from Nat.mul_comm s 2,
    getD_set_self _ _ _ _ (by simpa using h)]

theorem linesToStream_map_swap_length (s : Nat) : ∀ (ls : List (List Char)),
    (linesToStream (ls.map (swapPairAt s))).length = (linesToStream ls).length
  | [] => rfl
  | l :: ls => by
    show (swapPairAt s l ++ '\n' :: linesToStream (ls.map (swapPairAt s))).length =
      (l ++ '\n' :: linesToStream ls).length
    simp only [List.length_append, List.length_cons, swapPairAt_length,
      linesToStream_map_swap_length s ls]

theorem processSamp_orientOK {cfg : Config} {aE aT : List Char} {samp : Nat}
    {st st' : GState} {out : SampOutcome}
    (h : processSamp cfg aE aT samp st = .ok (st', out)) (hor : orientOK st) :
    orientOK st' := by
  obtain ⟨a, stA, hanc, hcase⟩ := processSamp_spec h
  have horA : orientOK stA := by
    intro o hm
    rw [(ancStep_fields hanc).1] at hm
    exact hor o hm
  rcases hcase with ⟨-, -, hst⟩ | ⟨-, -, hst⟩ | ⟨-, -, -, hpt⟩
  · rw [hst]
    intro o hm
    exact horA o hm
  · rw [hst]
    exact horA
  · rcases phaseTrack_spec hpt with ⟨-, hst⟩ | ⟨-, -, -, hst⟩ |
      ⟨-, -, -, hst⟩ | ⟨-, ho, hst⟩ | ⟨-, ho, -, hst⟩
    · rw [hst]
      intro o hm
      exact horA o hm
    · rw [hst]
      exact horA
    · rcases hst with hst | hst <;> rw [hst] <;> intro o hm
      · exact orientOK_setOrient horA (Or.inr (Or.inl rfl)) o hm
      · exact orientOK_setOrient horA (Or.inr (Or.inr rfl)) o hm
    · rw [hst]
      exact orientOK_hetBump horA
    · rw [hst]
      intro o hm
      rw [switchBump_homologs, hetBump_homologs] at hm
      rcases orient_cases horA ho with h0 | h0 <;> rw [h0] at hm
      · exact orientOK_setOrient horA (by decide) o hm
      · exact orientOK_setOrient horA (by decide) o hm

theorem processSamplesFrom_orientOK (cfg : Config) (aE aT : List Char) :
    ∀ (fuel samp : Nat) (st st' : GState),
    processSamplesFrom cfg aE aT fuel samp st = .ok st' → orientOK st →
    orientOK st' := by
  intro fuel
  induction fuel with
  | zero =>
    intro samp st st' h hor
    rw [processSamplesFrom] at h
    split at h
    · exact absurd h (by simp)
    · simp only [Except.ok.injEq] at h
      rw [← h]
      exact hor
  | succ m ih =>
    intro samp st st' h hor
    rw [processSamplesFrom] at h
    split at h
    · cases hps : processSamp cfg aE aT samp st with
      | error e => rw [hps] at h; exact absurd h (by simp)
      | ok r =>
        obtain ⟨st1, out⟩ := r
        rw [hps] at h
        dsimp only at h
        exact ih _ st1 st' h (processSamp_orientOK hps hor)
    · simp only [Except.ok.injEq] at h
      rw [← h]
      exact hor

theorem phaseTrack_swap_ne {e0 e1 t0 t1 : Char} {a : Int} {s samp : Nat}
    (hne : samp ≠ s) {st st' : GState} {out : SampOutcome}
    (h : phaseTrack e0 e1 t0 t1 a samp st = .ok (st', out)) :
    phaseTrack e0 e1 t0 t1 a samp (flipState s st) =
      .ok (flipState s st', out) := by
  have hg : (flipState s st).homologsInverted.getD samp (-1) =
      st.homologsInverted.getD samp (-1) := flipOrientAt_getD_ne hne _
  unfold phaseTrack at h ⊢
  rw [hg]
  by_cases c1 : e0 = '?' ∨ e1 = '?'
  · rw [if_pos c1] at h ⊢
    by_cases c2 : e0 = e1
    · rw [if_pos c2] at h ⊢
      simp only [Except.ok.injEq, Prod.mk.injEq] at h
      rw [← h.1, ← h.2]
      rfl
    · rw [if_neg c2] at h
      exact absurd h (by simp)
  · rw [if_neg c1] at h ⊢
    by_cases c3 : st.homologsInverted.getD samp (-1) = -1
    · rw [if_pos c3] at h ⊢
      by_cases c4 : t0 = t1
      · rw [if_pos c4] at h ⊢
        by_cases c5 : e0 = e1 ∧ e0 = t0
        · rw [if_pos c5] at h ⊢
          simp only [Except.ok.injEq, Prod.mk.injEq] at h
          rw [← h.1, ← h.2]
        · rw [if_neg c5] at h
          exact absurd h (by simp)
      · rw [if_neg c4] at h ⊢
        by_cases c5 : e0 = t0
        · rw [if_pos c5] at h ⊢
          by_cases c6 : e1 = t1
          · rw [if_pos c6] at h ⊢
            simp only [Except.ok.injEq, Prod.mk.injEq] at h
            rw [← h.1, ← h.2]
            unfold flipState
            dsimp only
            rw [flipOrientAt_set_ne hne]
          · rw [if_neg c6] at h
            exact absurd h (by simp)
        · rw [if_neg c5] at h ⊢
          by_cases c6 : e0 = t1 ∧ e1 = t0
          · rw [if_pos c6] at h ⊢
            simp only [Except.ok.injEq, Prod.mk.injEq] at h
            rw [← h.1, ← h.2]
            unfold flipState
            dsimp only
            rw [flipOrientAt_set_ne hne]
          · rw [if_neg c6] at h
            exact absurd h (by simp)
    · rw [if_neg c3] at h ⊢
      by_cases c7 : estAt (st.homologsInverted.getD samp (-1)) e0 e1 = t0
      · rw [if_pos c7] at h ⊢
        by_cases c8 : estAt (1 - st.homologsInverted.getD samp (-1)) e0 e1 = t1
        · rw [if_pos c8] at h ⊢
          simp only [Except.ok.injEq, Prod.mk.injEq] at h
          rw [← h.1, ← h.2, flipState_hetBump]
        · rw [if_neg c8] at h
          exact absurd h (by simp)
      · rw [if_neg c7] at h ⊢
        by_cases c8 : estAt (st.homologsInverted.getD samp (-1)) e0 e1 = t1 ∧
            estAt (1 - st.homologsInverted.getD samp (-1)) e0 e1 = t0
        · rw [if_pos c8] at h ⊢
          simp only [Except.ok.injEq, Prod.mk.injEq] at h
          rw [← h.1, ← h.2, flipState_switchBump_ne hne, flipState_hetBump]
        · rw [if_neg c8] at h
          exact absurd h (by simp)

theorem phaseTrack_swap_self {e0 e1 t0 t1 : Char} {a : Int} {s : Nat}
    {st st' : GState} {out : SampOutcome} (hor : orientOK st)
    (h : phaseTrack e0 e1 t0 t1 a s st = .ok (st', out)) :
    phaseTrack e1 e0 t0 t1 a s (flipState s st) =
      .ok (flipState s st', out) := by
  have hA0 : ∀ x y : Char, estAt 0 x y = x := fun x y => by
    unfold estAt; rw [if_pos rfl]
  have hA1 : ∀ x y : Char, estAt 1 x y = y := fun x y => by
    unfold estAt; rw [if_neg (by decide)]
  have hB0 : ∀ x y : Char, estAt ((1 : Int) - 0) x y = y := fun x y => by
    rw [show (1 : Int) - 0 = 1 by decide]; exact hA1 x y
  have hB1 : ∀ x y : Char, estAt ((1 : Int) - 1) x y = x := fun x y => by
    rw [show (1 : Int) - 1 = 0 by decide]; exact hA0 x y
  unfold phaseTrack at h ⊢
  by_cases c1 : e0 = '?' ∨ e1 = '?'
  · rw [if_pos c1] at h
    rw [if_pos c1.symm]
    by_cases c2 : e0 = e1
    · rw [if_pos c2] at h
      rw [if_pos c2.symm]
      simp only [Except.ok.injEq, Prod.mk.injEq] at h
      rw [← h.1, ← h.2]
      rfl
    · rw [if_neg c2] at h
      exact absurd h (by simp)
  · rw [if_neg c1] at h
    rw [if_neg (fun hh => c1 hh.symm)]
    by_cases c3 : st.homologsInverted.getD s (-1) = -1
    · rw [if_pos c3] at h
      rw [if_pos (show (flipState s st).homologsInverted.getD s (-1) = -1 by
        show (flipOrientAt s st.homologsInverted).getD s (-1) = -1
        rw [flipOrientAt_of_unset c3]
        exact c3)]
      by_cases c4 : t0 = t1
      · rw [if_pos c4] at h ⊢
        by_cases c5 : e0 = e1 ∧ e0 = t0
        · rw [if_pos c5] at h
          rw [if_pos ⟨c5.1.symm, c5.1.symm.trans c5.2⟩]
          simp only [Except.ok.injEq, Prod.mk.injEq] at h
          rw [← h.1, ← h.2]
        · rw [if_neg c5] at h
          exact absurd h (by simp)
      · rw [if_neg c4] at h ⊢
        by_cases c5 : e0 = t0
        · rw [if_pos c5] at h
          by_cases c6 : e1 = t1
          · rw [if_pos c6] at h
            rw [if_neg (show ¬e1 = t0 from
                fun hh => c4 (c6.symm.trans hh).symm),
              if_pos ⟨c6, c5⟩]
            simp only [Except.ok.injEq, Prod.mk.injEq] at h
            rw [← h.1, ← h.2]
            unfold flipState
            dsimp only
            rw [flipOrientAt_set_zero c3, flipOrientAt_of_unset c3]
          · rw [if_neg c6] at h
            exact absurd h (by simp)
        · rw [if_neg c5] at h
          by_cases c6 : e0 = t1 ∧ e1 = t0
          · rw [if_pos c6] at h
            rw [if_pos c6.2, if_pos c6.1]
            simp only [Except.ok.injEq, Prod.mk.injEq] at h
            rw [← h.1, ← h.2]
            unfold flipState
            dsimp only
            rw [flipOrientAt_set_one c3, flipOrientAt_of_unset c3]
          · rw [if_neg c6] at h
            exact absurd h (by simp)
    · rcases orient_cases hor c3 with h0 | h0
      · have hfg : (flipState s st).homologsInverted.getD s (-1) = 1 := by
          show (flipOrientAt s st.homologsInverted).getD s (-1) = 1
          rw [flipOrientAt_getD_self c3, h0]
          decide
        rw [if_neg c3, h0] at h
        rw [if_neg (show ¬(flipState s st).homologsInverted.getD s (-1) = -1
          by rw [hfg]; decide), hfg]
        rw [hA0 e0 e1, hB0 e0 e1] at h
        rw [hA1 e1 e0, hB1 e1 e0]
        by_cases c7 : e0 = t0
        · rw [if_pos c7] at h ⊢
          by_cases c8 : e1 = t1
          · rw [if_pos c8] at h ⊢
            simp only [Except.ok.injEq, Prod.mk.injEq] at h
            rw [← h.1, ← h.2, flipState_hetBump]
          · rw [if_neg c8] at h
            exact absurd h (by simp)
        · rw [if_neg c7] at h ⊢
          by_cases c8 : e0 = t1 ∧ e1 = t0
          · rw [if_pos c8] at h ⊢
            simp only [Except.ok.injEq, Prod.mk.injEq] at h
            rw [← h.1, ← h.2,
              flipState_switchBump_self a _ (by
                rw [hetBump_homologs]; exact Or.inl h0),
              flipState_hetBump]
          · rw [if_neg c8] at h
            exact absurd h (by simp)
      · have hfg : (flipState s st).homologsInverted.getD s (-1) = 0 := by
          show (flipOrientAt s st.homologsInverted).getD s (-1) = 0
          rw [flipOrientAt_getD_self c3, h0]
          decide
        rw [if_neg c3, h0] at h
        rw [if_neg (show ¬(flipState s st).homologsInverted.getD s (-1) = -1
          by rw [hfg]; decide), hfg]
        rw [hA1 e0 e1, hB1 e0 e1] at h
        rw [hA0 e1 e0, hB0 e1 e0]
        by_cases c7 : e1 = t0
        · rw [if_pos c7] at h ⊢
          by_cases c8 : e0 = t1
          · rw [if_pos c8] at h ⊢
            simp only [Except.ok.injEq, Prod.mk.injEq] at h
            rw [← h.1, ← h.2, flipState_hetBump]
          · rw [if_neg c8] at h
            exact absurd h (by simp)
        · rw [if_neg c7] at h ⊢
          by_cases c8 : e1 = t1 ∧ e0 = t0
          · rw [if_pos c8] at h ⊢
            simp only [Except.ok.injEq, Prod.mk.injEq] at h
            rw [← h.1, ← h.2,
              flipState_switchBump_self a _ (by
                rw [hetBump_homologs]; exact Or.inr h0),
              flipState_hetBump]
          · rw [if_neg c8] at h
            exact absurd h (by simp)

theorem processSamp_swap_ne {n s samp : Nat} (hne : samp ≠ s)
    {aE aT : List Char} {st st' : GState} {out : SampOutcome}
    (h : processSamp (defaultCfg n) aE aT samp st = .ok (st', out)) :
    processSamp (defaultCfg n) (swapPairAt s aE) aT samp (flipState s st) =
      .ok (flipState s st', out) := by
  unfold processSamp at h ⊢
  rw [show ancStep (defaultCfg n) samp st = .ok (-1, st) by
    simp [ancStep, defaultCfg]] at h
  rw [show ancStep (defaultCfg n) samp (flipState s st) =
    .ok (-1, flipState s st) by simp [ancStep, defaultCfg]]
  dsimp only at h ⊢
  rw [swapPairAt_getD_other s aE (samp * 2) (by omega) (by omega),
    swapPairAt_getD_other s aE (samp * 2 + 1) (by omega) (by omega)]
  by_cases c1 : (validTrueAllele (aT.getD (samp * 2) garbageChar) &&
      validTrueAllele (aT.getD (samp * 2 + 1) garbageChar)) = true
  · rw [if_pos c1] at h ⊢
    by_cases c2 : aT.getD (samp * 2) garbageChar = '9' ∨
        aT.getD (samp * 2 + 1) garbageChar = '9'
    · rw [if_pos c2] at h ⊢
      simp only [Except.ok.injEq, Prod.mk.injEq] at h
      rw [← h.1, ← h.2]
      rfl
    · rw [if_neg c2] at h ⊢
      by_cases c3 : aE.getD (samp * 2) garbageChar = '9' ∨
          aE.getD (samp * 2 + 1) garbageChar = '9'
      · rw [if_pos c3] at h
        exact absurd h (by simp)
      · rw [if_neg c3] at h ⊢
        rw [if_neg (show ¬(trioApplicable (defaultCfg n) samp &&
            tripleHetAmbig aT samp (trioOtherParent (defaultCfg n) samp)) =
            true by simp [trioApplicable, defaultCfg])] at h ⊢
        exact phaseTrack_swap_ne hne h
  · rw [if_neg c1] at h
    exact absurd h (by simp)

theorem processSamp_swap_self {n s : Nat} {aE aT : List Char}
    (hlen : 2 * s + 1 < aE.length) {st st' : GState} {out : SampOutcome}
    (hor : orientOK st)
    (h : processSamp (defaultCfg n) aE aT s st = .ok (st', out)) :
    processSamp (defaultCfg n) (swapPairAt s aE) aT s (flipState s st) =
      .ok (flipState s st', out) := by
  unfold processSamp at h ⊢
  rw [show ancStep (defaultCfg n) s st = .ok (-1, st) by
    simp [ancStep, defaultCfg]] at h
  rw [show ancStep (defaultCfg n) s (flipState s st) =
    .ok (-1, flipState s st) by simp [ancStep, defaultCfg]]
  dsimp only at h ⊢
  rw [swapPairAt_getD_fst s aE hlen, swapPairAt_getD_snd s aE hlen]
  by_cases c1 : (validTrueAllele (aT.getD (s * 2) garbageChar) &&
      validTrueAllele (aT.getD (s * 2 + 1) garbageChar)) = true
  · rw [if_pos c1] at h ⊢
    by_cases c2 : aT.getD (s * 2) garbageChar = '9' ∨
        aT.getD (s * 2 + 1) garbageChar = '9'
    · rw [if_pos c2] at h ⊢
      simp only [Except.ok.injEq, Prod.mk.injEq] at h
      rw [← h.1, ← h.2]
      rfl
    · rw [if_neg c2] at h ⊢
      by_cases c3 : aE.getD (s * 2) garbageChar = '9' ∨
          aE.getD (s * 2 + 1) garbageChar = '9'
      · rw [if_pos c3] at h
        exact absurd h (by simp)
      · rw [if_neg c3] at h
        rw [if_neg (show ¬(aE.getD (s * 2 + 1) garbageChar = '9' ∨
            aE.getD (s * 2) garbageChar = '9') from fun hh => c3 hh.symm)]
        rw [if_neg (show ¬(trioApplicable (defaultCfg n) s &&
            tripleHetAmbig aT s (trioOtherParent (defaultCfg n) s)) =
            true by simp [trioApplicable, defaultCfg])] at h ⊢
        exact phaseTrack_swap_self hor h
  · rw [if_neg c1] at h
    exact absurd h (by simp)

theorem processSamplesFrom_swap (n s : Nat) (aE aT : List Char)
    (hlen : 2 * s + 1 < aE.length) :
    ∀ (fuel samp : Nat) (st st' : GState),
    processSamplesFrom (defaultCfg n) aE aT fuel samp st = .ok st' →
    orientOK st →
    processSamplesFrom (defaultCfg n) (swapPairAt s aE) aT fuel samp
      (flipState s st) = .ok (flipState s st') := by
  intro fuel
  induction fuel with
  | zero =>
    intro samp st st' h hor
    rw [processSamplesFrom] at h ⊢
    by_cases hsm : samp < (defaultCfg n).numSamples
    · rw [if_pos hsm] at h
      exact absurd h (by simp)
    · rw [if_neg hsm] at h ⊢
      simp only [Except.ok.injEq] at h
      rw [h]
  | succ m ih =>
    intro samp st st' h hor
    rw [processSamplesFrom] at h ⊢
    by_cases hsm : samp < (defaultCfg n).numSamples
    · rw [if_pos hsm] at h ⊢
      cases hps : processSamp (defaultCfg n) aE aT samp st with
      | error e =>
        rw [hps] at h
        exact absurd h (by simp)
      | ok r =>
        obtain ⟨st1, out⟩ := r
        rw [hps] at h
        dsimp only at h
        have hor1 := processSamp_orientOK hps hor
        by_cases hss : samp = s
        · subst hss
          rw [processSamp_swap_self hlen hor hps]
          dsimp only
          exact ih _ st1 st' h hor1
        · rw [processSamp_swap_ne hss hps]
          dsimp only
          exact ih _ st1 st' h hor1
    · rw [if_neg hsm] at h ⊢
      simp only [Except.ok.injEq] at h
      rw [h]

theorem runLoop_swap (n s : Nat) (hs : s < n) :
    ∀ (estLines trueLines : List (List Char)) (fuel : Nat) (st st' : GState),
    (∀ l ∈ estLines, lineOK n l) → (∀ l ∈ trueLines, lineOK n l) →
    estLines.length = trueLines.length → orientOK st →
    runLoop (defaultCfg n) fuel st (linesToStream estLines)
      (linesToStream trueLines) = .ok st' →
    runLoop (defaultCfg n) fuel (flipState s st)
      (linesToStream (estLines.map (swapPairAt s)))
      (linesToStream trueLines) = .ok (flipState s st') := by
  intro estLines
  induction estLines with
  | nil =>
    intro trueLines fuel st st' hE hT hlen hor h
    cases fuel with
    | zero => exact absurd h (by simp [runLoop])
    | succ m =>
      have h2 : (Except.ok st : Except Err GState) = .ok st' := h
      rw [Except.ok.inj h2]
      rfl
  | cons lE restE ih =>
    intro trueLines fuel st st' hE hT hlen hor h
    cases trueLines with
    | nil => exact absurd hlen (by simp)
    | cons lT restT =>
      cases fuel with
      | zero => exact absurd h (by simp [runLoop])
      | succ m =>
        rw [show linesToStream (lE :: restE) =
              lE ++ '\n' :: linesToStream restE from rfl,
            show linesToStream (lT :: restT) =
              lT ++ '\n' :: linesToStream restT from rfl,
            runLoop_cons (by cases lE <;> simp)] at h
        rw [show linesToStream ((lE :: restE).map (swapPairAt s)) =
              swapPairAt s lE ++
                '\n' :: linesToStream (restE.map (swapPairAt s)) from rfl,
            show linesToStream (lT :: restT) =
              lT ++ '\n' :: linesToStream restT from rfl,
            runLoop_cons (by cases hsw : swapPairAt s lE <;> simp)]
        have hEl := hE lE (List.mem_cons_self lE restE)
        have hTl := hT lT (List.mem_cons_self lT restT)
        rw [processLocus_lines n st lE lT _ _ hEl.2 hTl.2 hEl.1 hTl.1] at h
        rw [processLocus_lines n (flipState s st) (swapPairAt s lE) lT _ _
          (swapPairAt_not_mem hEl.2) hTl.2
          ((swapPairAt_length s lE).trans hEl.1) hTl.1]
        cases hps : processSamples (defaultCfg n) lE lT
            { st with numMarkers := st.numMarkers + 1 } with
        | error e =>
          rw [hps] at h
          exact absurd h (by simp)
        | ok st1 =>
          rw [hps] at h
          dsimp only at h
          have hswap := processSamplesFrom_swap n s lE lT
            (by rw [hEl.1]; omega) (defaultCfg n).numSamples 0
            { st with numMarkers := st.numMarkers + 1 } st1 hps hor
          rw [show processSamples (defaultCfg n) (swapPairAt s lE) lT
              { flipState s st with
                numMarkers := (flipState s st).numMarkers + 1 } =
            Except.ok (flipState s st1) from hswap]
          dsimp only
          exact ih restT m st1 st'
            (fun l hl => hE l (List.mem_cons_of_mem lE hl))
            (fun l hl => hT l (List.mem_cons_of_mem lT hl))
            (by simpa using hlen)
            (processSamplesFrom_orientOK (defaultCfg n) lE lT
              (defaultCfg n).numSamples 0 _ st1 hps hor) h

/-- C8: if the two estimated alleles of sample `s` are swapped at every
locus (a global inversion of that sample's estimated homologs) while the
true stream is unchanged, the run still completes, its final state differs
only in sample `s`'s stored orientation, and in particular the per-sample
switch count of `s`, the global switch-error count and the
heterozygous-site count are all unchanged. -/
theorem global_inversion_invariance (n s : Nat)
    (estLines trueLines : List (List Char)) (anc : List (List Int))
    (hs : s < n) (hwf : wellFormedInput n estLines trueLines) :
    ∃ st, run (defaultCfg n) anc (linesToStream estLines)
        (linesToStream trueLines) = .ok st ∧
      run (defaultCfg n) anc (linesToStream (estLines.map (swapPairAt s)))
        (linesToStream trueLines) = .ok (flipState s st) ∧
      indivOf (flipState s st) s = indivOf st s ∧
      (flipState s st).numSwitchErrors = st.numSwitchErrors ∧
      (flipState s st).totalHetSites = st.totalHetSites := by
  obtain ⟨st, hr, -, -⟩ := runLoop_wellformed n estLines trueLines
    ((linesToStream estLines).length + 1) (initState (defaultCfg n) anc) hwf
    (fun o hm => Or.inl (List.eq_of_mem_replicate hm)) (by omega)
  refine ⟨st, hr, ?_, rfl, rfl, rfl⟩
  have hinit : flipState s (initState (defaultCfg n) anc) =
      initState (defaultCfg n) anc := by
    unfold flipState
    rw [flipOrientAt_of_unset
      (show (initState (defaultCfg n) anc).homologsInverted.getD s (-1) = -1
        from getD_replicate_self (-1) n s)]
  have hswapRun := runLoop_swap n s hs estLines trueLines
    ((linesToStream estLines).length + 1) (initState (defaultCfg n) anc) st
    hwf.2.1 hwf.2.2.1 hwf.1
    (fun o hm => Or.inl (List.eq_of_mem_replicate hm)) hr
  unfold run
  rw [linesToStream_map_swap_length s estLines, ← hinit]
  exact hswapRun

/-- Concrete instance of `global_inversion_invariance`: one sample, one
locus, estimated "01" against true "01", inverting sample 0. -/
theorem global_inversion_invariance_witness :
    ∃ st, run (defaultCfg 1) [] (linesToStream [['0', '1']])
        (linesToStream [['0', '1']]) = .ok st ∧
      run (defaultCfg 1) []
        (linesToStream ([['0', '1']].map (swapPairAt 0)))
        (linesToStream [['0', '1']]) = .ok (flipState 0 st) ∧
      indivOf (flipState 0 st) 0 = indivOf st 0 ∧
      (flipState 0 st).numSwitchErrors = st.numSwitchErrors ∧
      (flipState 0 st).totalHetSites = st.totalHetSites := by
  have hwf : wellFormedInput 1 [['0', '1']] [['0', '1']] := by
    refine ⟨rfl, ?_, ?_, ?_⟩
    · intro l hl
      rcases List.mem_singleton.1 hl with rfl
      exact ⟨rfl, by decide⟩
    · intro l hl
      rcases List.mem_singleton.1 hl with rfl
      exact ⟨rfl, by decide⟩
    · intro i s hi hs
      have hi0 : i = 0 := by simpa using hi
      have hs0 : s = 0 := by omega
      subst hi0
      subst hs0
      exact ⟨by decide, fun h1 h2 => Or.inr (Or.inl ⟨rfl, rfl⟩)⟩
  exact global_inversion_invariance 1 0 [['0', '1']] [['0', '1']] []
    (by decide) hwf


end SwitchErr
